import Mathlib

/-!
Shallow embedding of the micrio dependency/feature resolver
(`src/src_registry.rs` and `src/common.rs`), together with theorems
settling the specification claims about it.

The data model mirrors the `crates_index` records consumed by the code;
the semver engine and the `cfg_expr` parser are external crates and are
abstracted as function parameters (parsing/matching of version strings,
parsing of `cfg(...)` strings), while the evaluation logic that the code
performs itself (predicate evaluation, three-valued combination, the
worklist loops, set insertion) is translated from the source.
-/

deriving instance DecidableEq for Except

namespace Micrio

/-- Dependency kinds of `crates_index::DependencyKind`. -/
inductive DependencyKind where
  | normal
  | build
  | dev
deriving DecidableEq

/-- A `crates_index::Dependency` record, as consumed by `src_registry.rs`:
`name()` is the (possibly renamed) ref name used in feature entries,
`crate_name()` the target package name. -/
structure Dependency where
  name : String
  crateName : String
  requirement : String
  features : List String
  optional : Bool
  defaultFeatures : Bool
  target : Option String
  kind : DependencyKind
deriving DecidableEq

/-- A `crates_index::Version` record: one release of a package.
`features` is the raw feature table (a `HashMap` in Rust, modelled as an
association list fixing one iteration order). -/
structure IndexVersion where
  name : String
  version : String
  yanked : Bool
  dependencies : List Dependency
  features : List (String × List String)
deriving DecidableEq

/-- A `crates_index::Crate`: a package with its releases in repository
order (oldest first; the code iterates them reversed for newest-first). -/
structure Crate where
  name : String
  versions : List IndexVersion
deriving DecidableEq

/-- The version store (`crates_index::Index`), exposing lookup by
package name (`common::get_crate` / `Index::crate_`). -/
structure Index where
  crates : List Crate
deriving DecidableEq

/-- `common::get_crate`: find a package by name. -/
def Index.getCrate (i : Index) (name : String) : Option Crate :=
  i.crates.find? (fun c => c.name == name)

/-- `common::Version`: a release record paired with the download flag.
`PartialEq`/`Hash` for this type use only `(name, version)` — the
download flag is ignored by set membership (see `sameKey`). -/
structure Version where
  iv : IndexVersion
  download : Bool
deriving DecidableEq

/-- The `(name, version)` key equality implemented by
`impl PartialEq for common::Version` (`common.rs:32-44`). -/
def sameKey (a b : Version) : Bool :=
  a.iv.name == b.iv.name && a.iv.version == b.iv.version

/-- `HashSet<common::Version>::insert`: when an element with the same
`(name, version)` key is already present, the set is left unchanged
(Rust's `HashSet::insert` does not replace an existing equal value);
otherwise the element is added. -/
def insertV (s : List Version) (v : Version) : List Version :=
  if s.any (fun w => sameKey w v) then s else s ++ [v]

/-- Membership of the closure set, by `(name, version)` key. -/
def memKey (s : List Version) (v : Version) : Bool :=
  s.any (fun w => sameKey w v)

/-- The fatal error kinds of `src_registry::Error`. -/
inductive RErr where
  | create
  | crateNotFound
  | configExpression
  | semVerRequirement
  | semVerVersion
  | featureTable
deriving DecidableEq

/-- The semver engine (`semver` crate), abstracted: success of
`VersionReq::parse` / `Version::parse` and the composite
`req.matches(version)` as functions of the raw strings. -/
structure SemverEngine where
  parseReqOk : String → Bool
  parseVerOk : String → Bool
  reqMatches : String → String → Bool

/-- One `cfg(...)` predicate, as classified by the match in
`dependency_enabled_for_target` (`src_registry.rs:419-475`):
`target` is a `Predicate::Target` (a `target_*` predicate matched
against the target descriptor), and `other` any predicate outside the
four supported kinds. -/
inductive CfgPred where
  | target (id : String)
  | targetFeature (f : String)
  | flag (f : String)
  | keyValue (key val : String)
  | other
deriving DecidableEq

/-- A parsed `cfg_expr::Expression`: predicates combined by the
standard `all`/`any`/`not` combinators. -/
inductive CfgExpr where
  | pred (p : CfgPred)
  | all (es : List CfgExpr)
  | any (es : List CfgExpr)
  | not (e : CfgExpr)

/-- Three-valued conjunction of `cfg_expr`'s `Logic for Option<bool>`:
both operands must be determinate. -/
def andO : Option Bool → Option Bool → Option Bool
  | some a, some b => some (a && b)
  | _, _ => none

/-- Three-valued disjunction of `cfg_expr`'s `Logic for Option<bool>`. -/
def orO : Option Bool → Option Bool → Option Bool
  | some a, some b => some (a || b)
  | _, _ => none

/-- Three-valued negation of `cfg_expr`'s `Logic for Option<bool>`. -/
def notO : Option Bool → Option Bool
  | some a => some (!a)
  | none => none

mutual
/-- `cfg_expr::Expression::eval` with an `Option<bool>` predicate
evaluator: combinators fold with the three-valued logic, `all []`
evaluating to `true` and `any []` to `false`. -/
def evalCfg (p : CfgPred → Option Bool) : CfgExpr → Option Bool
  | .pred q => p q
  | .all es => evalAll p es
  | .any es => evalAny p es
  | .not e => notO (evalCfg p e)

/-- Fold of `andO` over the children of an `all(...)`. -/
def evalAll (p : CfgPred → Option Bool) : List CfgExpr → Option Bool
  | [] => some true
  | e :: es => andO (evalCfg p e) (evalAll p es)

/-- Fold of `orO` over the children of an `any(...)`. -/
def evalAny (p : CfgPred → Option Bool) : List CfgExpr → Option Bool
  | [] => some false
  | e :: es => orO (evalCfg p e) (evalAny p es)
end

/-- The fixed target descriptor: the full triple
(`common::TARGET_TRIPLE`) and the result of
`TargetPredicate::matches(target)` for `Predicate::Target` predicates
(the `cfg_expr` target-matching is external and abstracted). -/
structure Target where
  triple : String
  targetPredMatches : String → Bool

/-- The predicate evaluator closure of `dependency_enabled_for_target`
(`src_registry.rs:419-475`): `Target` predicates are matched against
the descriptor, `target_feature` is assumed true, a bare flag is
assumed false, `key = val` compares `val` with the full triple when
`key` is `"target"` and is assumed false for any other key, and any
other predicate yields `None` (indeterminate). -/
def predEval (t : Target) : CfgPred → Option Bool
  | .target id => some (t.targetPredMatches id)
  | .targetFeature _ => some true
  | .flag _ => some false
  | .keyValue key val => if key == "target" then some (val == t.triple) else some false
  | .other => none

/-- The environment a `SrcRegistry` closes over: the target descriptor,
the semver engine, and `cfg_expr::Expression::parse` abstracted as a
partial parsing function on guard strings. -/
structure Env where
  target : Target
  semver : SemverEngine
  parseCfg : String → Option CfgExpr

/-- Character-level model of `str::starts_with` (kept away from
`String.startsWith`, whose implementation does not reduce in the
kernel). -/
def strStartsWith (s p : String) : Bool :=
  p.data.isPrefixOf s.data

/-- Character-level model of `str::ends_with` for a one-character
suffix pattern. -/
def strEndsWith (s p : String) : Bool :=
  p.data.isSuffixOf s.data

/-- Drop the first `n` characters (the remainder after
`str::strip_prefix` of an `n`-character ASCII prefix). -/
def strDrop (s : String) (n : Nat) : String :=
  ⟨s.data.drop n⟩

/-- Drop the last `n` characters (the remainder after
`str::strip_suffix` of an `n`-character suffix). -/
def strDropRight (s : String) (n : Nat) : String :=
  ⟨s.data.take (s.data.length - n)⟩

/-- Split a character list on a separator character, keeping empty
segments (the semantics of Rust's `str::split`). -/
def splitCharAux (c : Char) : List Char → List (List Char)
  | [] => [[]]
  | x :: xs =>
    if x = c then [] :: splitCharAux c xs
    else
      match splitCharAux c xs with
      | [] => [[x]]
      | g :: gs => (x :: g) :: gs

/-- `entry.split("/")` as used by `parse_feature_table_entry`. -/
def strSplitSlash (s : String) : List String :=
  (splitCharAux '/' s.data).map (fun l => ⟨l⟩)

/-- `SrcRegistry::dependency_enabled_for_target`
(`src_registry.rs:399-493`): an absent guard is true; a guard starting
with `"cfg"` is parsed (parse failure is fatal) and evaluated with
`predEval`, an indeterminate result being treated as true; any other
guard is compared verbatim with the full target triple. -/
def dependencyEnabledForTarget (env : Env) (dep : Dependency) : Except RErr Bool :=
  match dep.target with
  | none => .ok true
  | some exprStr =>
    if strStartsWith exprStr "cfg" then
      match env.parseCfg exprStr with
      | none => .error .configExpression
      | some expr =>
        match evalCfg (predEval env.target) expr with
        | some result => .ok result
        | none => .ok true
    else
      .ok (exprStr == env.target.triple)

/-! ## Feature-table parsing (`src_registry.rs:523-733`) -/

/-- `src_registry::FeatureTableEntry`, the parsed form of one raw
activation string. -/
inductive FeatureTableEntry where
  | feature (name : String)
  | dependency (name : String)
  | weakDependencyFeature (depName feature : String)
  | strongDependencyFeature (depName feature : String)
deriving DecidableEq

/-- The parsed feature table: `HashMap<String, Vec<FeatureTableEntry>>`,
modelled as an association list with unique keys. -/
abbrev FeaturesTable := List (String × List FeatureTableEntry)

/-- `HashMap::get`: lookup of the first (unique) binding of a key. -/
def lookupA (m : FeaturesTable) (k : String) : Option (List FeatureTableEntry) :=
  (m.find? (fun kv => kv.1 == k)).map (·.2)

/-- `HashMap::insert`: replace the binding of an existing key in place,
or append a new binding. -/
def insertA (m : FeaturesTable) (k : String) (v : List FeatureTableEntry) : FeaturesTable :=
  if m.any (fun kv => kv.1 == k) then
    m.map (fun kv => if kv.1 == k then (k, v) else kv)
  else
    m ++ [(k, v)]

/-- `src_registry::is_feature_of`: the name is a key of the raw feature
table. -/
def isFeatureOf (name : String) (cv : IndexVersion) : Bool :=
  cv.features.any (fun kv => kv.1 == name)

/-- `src_registry::is_optional_dependency_of`: some optional dependency
(of any kind) has this ref name. -/
def isOptionalDependencyOf (name : String) (cv : IndexVersion) : Bool :=
  cv.dependencies.any (fun d => d.optional && d.name == name)

/-- `src_registry::is_dependency_of`: some dependency (of any kind) has
this ref name. -/
def isDependencyOf (name : String) (cv : IndexVersion) : Bool :=
  cv.dependencies.any (fun d => d.name == name)

/-- `src_registry::parse_feature_or_dependency_entry`
(`src_registry.rs:597-635`): a one-part entry. The second component of
the result is the ref name removed from the implicit-feature set (the
`implicit_features.remove(dep_name)` mutation), when any. -/
def parseFeatureOrDependencyEntry (cv : IndexVersion) (entry : String) :
    Except RErr (FeatureTableEntry × Option String) :=
  if strStartsWith entry "dep:" then
    let depName := strDrop entry 4
    if isOptionalDependencyOf depName cv then
      .ok (.dependency depName, some depName)
    else
      .error .featureTable
  else
    if isFeatureOf entry cv then
      .ok (.feature entry, none)
    else if isOptionalDependencyOf entry cv then
      .ok (.dependency entry, none)
    else
      .error .featureTable

/-- `src_registry::parse_dependency_feature_entry`
(`src_registry.rs:637-714`): a two-part `name/feat` entry. The second
component of the result is the ref name removed from the
implicit-feature set, when any. -/
def parseDependencyFeatureEntry (cv : IndexVersion) (depNamePart featPart : String) :
    Except RErr (FeatureTableEntry × Option String) :=
  if strStartsWith depNamePart "dep:" then
    let stripped := strDrop depNamePart 4
    let isWeak := strEndsWith stripped "?"
    let depName := if isWeak then strDropRight stripped 1 else stripped
    if isOptionalDependencyOf depName cv then
      if isWeak then
        .ok (.weakDependencyFeature depName featPart, some depName)
      else
        .ok (.strongDependencyFeature depName featPart, some depName)
    else
      .error .featureTable
  else
    if strEndsWith depNamePart "?" then
      let depName := strDropRight depNamePart 1
      if isOptionalDependencyOf depName cv then
        .ok (.weakDependencyFeature depName featPart, none)
      else
        .error .featureTable
    else
      if isDependencyOf depNamePart cv then
        .ok (.strongDependencyFeature depNamePart featPart, none)
      else
        .error .featureTable

/-- `src_registry::parse_feature_table_entry` (`src_registry.rs:564-595`):
split the raw entry on `"/"` and dispatch on the number of parts. -/
def parseFeatureTableEntry (cv : IndexVersion) (entry : String) :
    Except RErr (FeatureTableEntry × Option String) :=
  match strSplitSlash entry with
  | [single] => parseFeatureOrDependencyEntry cv single
  | [p0, p1] => parseDependencyFeatureEntry cv p0 p1
  | _ => .error .featureTable

/-- Remove every occurrence of a name from the implicit-feature set
(`HashSet::<&str>::remove`). -/
def removeName (s : List String) (n : String) : List String :=
  s.filter (fun m => m ≠ n)

/-- Parse the entry list of one feature, threading the set of implicit
features still to be added (the inner loop of
`parse_then_grow_features_table`). -/
def parseEntries (cv : IndexVersion) :
    List String → List String → Except RErr (List FeatureTableEntry × List String)
  | [], implicits => .ok ([], implicits)
  | e :: es, implicits =>
    match parseFeatureTableEntry cv e with
    | .error err => .error err
    | .ok (pe, supp) =>
      let implicits' := match supp with
        | some n => removeName implicits n
        | none => implicits
      match parseEntries cv es implicits' with
      | .error err => .error err
      | .ok (pes, implicits'') => .ok (pe :: pes, implicits'')

/-- Parse all features of the raw table, threading the implicit set
(the outer loop of `parse_then_grow_features_table`). -/
def parseFeatures (cv : IndexVersion) :
    List (String × List String) → FeaturesTable → List String →
    Except RErr (FeaturesTable × List String)
  | [], table, implicits => .ok (table, implicits)
  | (feat, entries) :: rest, table, implicits =>
    match parseEntries cv entries implicits with
    | .error err => .error err
    | .ok (pes, implicits') =>
      parseFeatures cv rest (insertA table feat pes) implicits'

/-- `src_registry::parse_then_grow_features_table`
(`src_registry.rs:530-562`): parse every entry, then insert an implicit
`name → [Dependency name]` binding for every optional normal-or-build
dependency whose ref name was never the subject of a `dep:` prefix.
The final insertions use `HashMap::insert` and so replace an existing
binding of the same name. -/
def parseThenGrowFeaturesTable (cv : IndexVersion) : Except RErr FeaturesTable :=
  let implicits0 :=
    (cv.dependencies.filter
      (fun d => d.optional && (d.kind == .normal || d.kind == .build))).map (·.name)
  match parseFeatures cv cv.features [] implicits0 with
  | .error err => .error err
  | .ok (table, implicits) =>
    .ok (implicits.foldl (fun t n => insertA t n [.dependency n]) table)

/-! ## Activation engine (`src_registry.rs:735-851`) -/

/-- The mutable state of the worklist loop in
`get_enabled_features_for_optional_dependency`: the pending queue
(`features_to_examine`), the accumulators `enabled_features` and
`weakly_enabled_features`, and the `dependency_enabled` flag. -/
structure ActState where
  queue : List String
  enabledFeatures : List String
  weakFeatures : List String
  depEnabled : Bool
deriving DecidableEq

/-- Push an element unless already present (the
`if !v.contains(x) { v.push(x) }` idiom used throughout the loops). -/
def pushIfAbsent (acc : List String) (w : String) : List String :=
  if acc.contains w then acc else acc ++ [w]

/-- Processing of one entry of a popped feature
(`src_registry.rs:757-784`): `Feature(g)` is enqueued unless already
pending, entries naming this dependency set the flag and accumulate
strong/weak features (without duplicates), and entries for other
dependencies are ignored. -/
def entryStep (depName : String) (st : ActState) (e : FeatureTableEntry) : ActState :=
  match e with
  | .feature g =>
    if st.queue.contains g then st else { st with queue := st.queue ++ [g] }
  | .dependency n =>
    if n == depName then { st with depEnabled := true } else st
  | .strongDependencyFeature n g =>
    if n == depName then
      { st with
        depEnabled := true
        enabledFeatures := pushIfAbsent st.enabledFeatures g }
    else st
  | .weakDependencyFeature n g =>
    if n == depName then
      { st with weakFeatures := pushIfAbsent st.weakFeatures g }
    else st

/-- Processing of the entry list of one popped feature: the inner
`for entry in entries` loop. -/
def processEntries (depName : String) (entries : List FeatureTableEntry) (st : ActState) :
    ActState :=
  entries.foldl (entryStep depName) st

/-- One iteration of the worklist loop: pop the front feature, skip it
when absent from the table (warned), else process its entries. -/
def actStep (table : FeaturesTable) (depName : String) (st : ActState) : ActState :=
  match st.queue with
  | [] => st
  | f :: rest =>
    let st' : ActState := { st with queue := rest }
    match lookupA table f with
    | none => st'
    | some entries => processEntries depName entries st'

/-- The worklist loop, fuelled: `none` means the iteration bound was
exhausted (the Rust loop has no bound and simply diverges in that
case). -/
def actRun (table : FeaturesTable) (depName : String) : Nat → ActState → Option ActState
  | 0, st => match st.queue with
    | [] => some st
    | _ :: _ => none
  | fuel + 1, st => match st.queue with
    | [] => some st
    | _ :: _ => actRun table depName fuel (actStep table depName st)

/-- The epilogue of `get_enabled_features_for_optional_dependency`
(`src_registry.rs:787-796`): when the dependency is enabled, append
each weakly enabled feature not already present and return the list;
otherwise return `None`. -/
def finishOpt (st : ActState) : Option (List String) :=
  if st.depEnabled then
    some (st.weakFeatures.foldl pushIfAbsent st.enabledFeatures)
  else none

/-- `src_registry::get_enabled_features_for_optional_dependency`
(`src_registry.rs:735-797`), fuelled. The outer `none` is fuel
exhaustion; the inner option is the Rust `Option<Vec<String>>` (`none`
meaning the optional dependency is not enabled). -/
def getEnabledFeaturesForOptionalDependency (fuel : Nat) (table : FeaturesTable)
    (enabledCrateFeatures : List String) (dep : Dependency) (forceEnable : Bool) :
    Option (Option (List String)) :=
  (actRun table dep.name fuel
    ⟨enabledCrateFeatures, dep.features, [], forceEnable⟩).map finishOpt

/-- Worklist state of `get_enabled_features_for_dependency` (required
dependencies): only the queue and the enabled features evolve;
`Dependency` and weak entries naming the dependency are logged and
otherwise ignored. -/
structure ReqState where
  queue : List String
  enabledFeatures : List String
deriving DecidableEq

/-- Processing of one entry for a required dependency
(`src_registry.rs:818-847`): `Dependency` and weak entries naming the
dependency are only logged. -/
def entryStepReq (depName : String) (st : ReqState) (e : FeatureTableEntry) : ReqState :=
  match e with
  | .feature g =>
    if st.queue.contains g then st else { st with queue := st.queue ++ [g] }
  | .strongDependencyFeature n g =>
    if n == depName then
      { st with enabledFeatures := pushIfAbsent st.enabledFeatures g }
    else st
  | _ => st

/-- Entry-list processing for a required dependency. -/
def processEntriesReq (depName : String) (entries : List FeatureTableEntry) (st : ReqState) :
    ReqState :=
  entries.foldl (entryStepReq depName) st

/-- One worklist iteration for a required dependency. -/
def reqStep (table : FeaturesTable) (depName : String) (st : ReqState) : ReqState :=
  match st.queue with
  | [] => st
  | f :: rest =>
    let st' : ReqState := { st with queue := rest }
    match lookupA table f with
    | none => st'
    | some entries => processEntriesReq depName entries st'

/-- The fuelled worklist loop for a required dependency. -/
def reqRun (table : FeaturesTable) (depName : String) : Nat → ReqState → Option ReqState
  | 0, st => match st.queue with
    | [] => some st
    | _ :: _ => none
  | fuel + 1, st => match st.queue with
    | [] => some st
    | _ :: _ => reqRun table depName fuel (reqStep table depName st)

/-- `src_registry::get_enabled_features_for_dependency`
(`src_registry.rs:799-851`), fuelled: always yields the accumulated
feature list when the loop completes. -/
def getEnabledFeaturesForDependency (fuel : Nat) (table : FeaturesTable)
    (enabledCrateFeatures : List String) (dep : Dependency) :
    Option (List String) :=
  (reqRun table dep.name fuel ⟨enabledCrateFeatures, dep.features⟩).map (·.enabledFeatures)

/-! ## Release selection (`src_registry.rs:496-521`) and closure walk -/

/-- The tail of `get_dependency_crate_version`: scan the candidate list
(already newest-first and with withdrawn releases filtered out),
failing on an unparsable version string and returning the first
candidate whose version matches the requirement. -/
def getDependencyCrateVersionGo (env : Env) (reqStr : String) :
    List IndexVersion → Except RErr (Option IndexVersion)
  | [] => .ok none
  | v :: vs =>
    if env.semver.parseVerOk v.version then
      if env.semver.reqMatches reqStr v.version then .ok (some v)
      else getDependencyCrateVersionGo env reqStr vs
    else .error .semVerVersion

/-- `src_registry::get_dependency_crate_version`
(`src_registry.rs:496-521`): parse the requirement (fatal on failure),
then scan the package's releases newest-first (`iter().rev()`),
skipping yanked ones, for the first compatible version; `Ok(None)` when
no candidate matches. -/
def getDependencyCrateVersion (env : Env) (dep : Dependency) (depCrate : Crate) :
    Except RErr (Option IndexVersion) :=
  if env.semver.parseReqOk dep.requirement then
    getDependencyCrateVersionGo env dep.requirement
      ((depCrate.versions.reverse).filter (fun v => !v.yanked))
  else .error .semVerRequirement

/-- `SrcRegistry::add_dependency` (`src_registry.rs:379-397`): look up
the target package (fatal when absent), select a compatible release;
when none exists, warn and leave the closure unchanged; otherwise build
a `Version` carrying the computed download flag, insert it into the
closure set, and return it. -/
def addDependency (env : Env) (index : Index) (dep : Dependency) (download : Bool)
    (req : List Version) : Except RErr (Option Version × List Version) :=
  match index.getCrate dep.crateName with
  | none => .error .crateNotFound
  | some depCrate =>
    match getDependencyCrateVersion env dep depCrate with
    | .error e => .error e
    | .ok none => .ok (none, req)
    | .ok (some iv) =>
      let v : Version := ⟨iv, download⟩
      .ok (some v, insertV req v)

/-- `src_registry::EnabledDependency`: a selected child release
together with the features to enable in it and the
`has_default_features` flag of the edge that reached it. -/
structure EnabledDependency where
  crateVersion : Version
  enabledFeatures : List String
  hasDefaultFeatures : Bool
deriving DecidableEq

/-- `Vec::swap_remove`: remove the element at an index by moving the
last element into its place. -/
def swapRemove (l : List String) (i : Nat) : List String :=
  match l.getLast? with
  | none => l
  | some last => (l.set i last).dropLast

/-- The `default`-feature normalization at the head of
`process_enabled_dependency` (`src_registry.rs:270-287`): with
`has_default_features`, add `"default"` when the release declares it
and it is not yet enabled; without it, `swap_remove` the first
occurrence of `"default"`. -/
def normalizeDefaultFeatures (cv : IndexVersion) (feats : List String) (hasDefault : Bool) :
    List String :=
  if hasDefault then
    if isFeatureOf "default" cv && !feats.contains "default" then feats ++ ["default"]
    else feats
  else
    match feats.indexOf? "default" with
    | some i => swapRemove feats i
    | none => feats

/-- The per-dependency body shared by the loops of
`get_required_dependencies` (`src_registry.rs:167-240`, with
`parentDownload = true` and `force = dependency.is_optional()`) and
`process_enabled_dependency` (`src_registry.rs:296-361`, with
`parentDownload = crate_version.download` and `force = false`):
evaluate the target guard, compute the child download flag as
`parentDownload && guard`, run the activation engine, and on activation
add the selected release to the closure, yielding the
`EnabledDependency` to recurse into. The outer `none` is fuel
exhaustion of the activation worklist. -/
def processDep (env : Env) (index : Index) (fuel : Nat) (table : FeaturesTable)
    (enabledCrateFeatures : List String) (dep : Dependency)
    (parentDownload force : Bool) (req : List Version) :
    Option (Except RErr (List Version × Option EnabledDependency)) :=
  match dependencyEnabledForTarget env dep with
  | .error e => some (.error e)
  | .ok guardTrue =>
    let download := parentDownload && guardTrue
    if dep.optional then
      match getEnabledFeaturesForOptionalDependency fuel table enabledCrateFeatures dep force with
      | none => none
      | some none => some (.ok (req, none))
      | some (some feats) =>
        match addDependency env index dep download req with
        | .error e => some (.error e)
        | .ok (none, req') => some (.ok (req', none))
        | .ok (some v, req') => some (.ok (req', some ⟨v, feats, dep.defaultFeatures⟩))
    else
      match getEnabledFeaturesForDependency fuel table enabledCrateFeatures dep with
      | none => none
      | some feats =>
        match addDependency env index dep download req with
        | .error e => some (.error e)
        | .ok (none, req') => some (.ok (req', none))
        | .ok (some v, req') => some (.ok (req', some ⟨v, feats, dep.defaultFeatures⟩))

/-- The dependency loop of either walker function: fold `processDep`
over the normal-or-build dependencies, accumulating the closure set and
the list of enabled children to recurse into. -/
def processDeps (env : Env) (index : Index) (fuel : Nat) (table : FeaturesTable)
    (enabledCrateFeatures : List String) (parentDownload isRoot : Bool) :
    List Dependency → List Version → List EnabledDependency →
    Option (Except RErr (List Version × List EnabledDependency))
  | [], req, eds => some (.ok (req, eds))
  | d :: ds, req, eds =>
    match processDep env index fuel table enabledCrateFeatures d parentDownload
        (isRoot && d.optional) req with
    | none => none
    | some (.error e) => some (.error e)
    | some (.ok (req', none)) =>
      processDeps env index fuel table enabledCrateFeatures parentDownload isRoot ds req' eds
    | some (.ok (req', some ed)) =>
      processDeps env index fuel table enabledCrateFeatures parentDownload isRoot ds req'
        (eds ++ [ed])

/-- `SrcRegistry::process_enabled_dependency` (`src_registry.rs:258-377`),
iterated over a list of enabled children: normalize the `default`
feature, parse the feature table, process every normal-or-build
dependency with `parentDownload` equal to this release's download flag,
and recurse into the enabled children. The fuel bounds the amount of
recursion (the Rust recursion is unbounded); `none` is fuel
exhaustion. -/
def processEDs (env : Env) (index : Index) :
    Nat → List EnabledDependency → List Version → Option (Except RErr (List Version))
  | _, [], req => some (.ok req)
  | 0, _ :: _, _ => none
  | fuel + 1, ed :: rest, req =>
    let cv := ed.crateVersion
    let feats := normalizeDefaultFeatures cv.iv ed.enabledFeatures ed.hasDefaultFeatures
    match parseThenGrowFeaturesTable cv.iv with
    | .error e => some (.error e)
    | .ok table =>
      match processDeps env index (fuel + 1) table feats cv.download false
          (cv.iv.dependencies.filter (fun d => d.kind == .normal || d.kind == .build))
          req [] with
      | none => none
      | some (.error e) => some (.error e)
      | some (.ok (req', children)) =>
        match processEDs env index fuel children req' with
        | none => none
        | some (.error e) => some (.error e)
        | some (.ok req'') => processEDs env index fuel rest req''

/-- The per-root body of `get_required_dependencies`
(`src_registry.rs:146-253`): parse and grow the feature table, enable
every feature of the grown table, process each normal-or-build
dependency with an implicit parent download flag of `true` and
force-activation of optional dependencies, then recurse into the
enabled children. -/
def processRoot (env : Env) (index : Index) (fuel : Nat) (cv : Version) (req : List Version) :
    Option (Except RErr (List Version)) :=
  match parseThenGrowFeaturesTable cv.iv with
  | .error e => some (.error e)
  | .ok table =>
    let enabledCrateFeatures := table.map (·.1)
    match processDeps env index fuel table enabledCrateFeatures true true
        (cv.iv.dependencies.filter (fun d => d.kind == .normal || d.kind == .build))
        req [] with
    | none => none
    | some (.error e) => some (.error e)
    | some (.ok (req', children)) => processEDs env index fuel children req'

/-- The root loop of `get_required_dependencies`: fold `processRoot`
over the roots, threading the shared closure set. The root list fixes
one iteration order of the Rust `HashSet` of roots. -/
def getRequiredDependenciesAux (env : Env) (index : Index) (fuel : Nat) :
    List Version → List Version → Option (Except RErr (List Version))
  | [], req => some (.ok req)
  | root :: rest, req =>
    match processRoot env index fuel root req with
    | none => none
    | some (.error e) => some (.error e)
    | some (.ok req') => getRequiredDependenciesAux env index fuel rest req'

/-- `SrcRegistry::get_required_dependencies` (`src_registry.rs:141-256`):
the resolver entry point, starting from an empty closure set. -/
def getRequiredDependencies (env : Env) (index : Index) (fuel : Nat)
    (roots : List Version) : Option (Except RErr (List Version)) :=
  getRequiredDependenciesAux env index fuel roots []

/-! ## Lemmas about the activation worklist -/

/-- Entries that activate the dependency when processed: `Dep(n)` and
`DepStrong(n, _)` for the dependency's ref name. -/
def isActivator (depName : String) : FeatureTableEntry → Bool
  | .dependency n => n == depName
  | .strongDependencyFeature n _ => n == depName
  | _ => false

theorem mem_pushIfAbsent_of_mem {acc : List String} {a : String} (w : String)
    (h : a ∈ acc) : a ∈ pushIfAbsent acc w := by
  unfold pushIfAbsent
  split
  · exact h
  · exact List.mem_append_left _ h

theorem self_mem_pushIfAbsent (acc : List String) (w : String) : w ∈ pushIfAbsent acc w := by
  unfold pushIfAbsent
  split
  · next hc => simpa using hc
  · simp

theorem pushIfAbsent_append (acc : List String) (w : String) :
    ∃ ext, pushIfAbsent acc w = acc ++ ext := by
  unfold pushIfAbsent
  split
  · exact ⟨[], by simp⟩
  · exact ⟨[w], rfl⟩

theorem mem_foldl_pushIfAbsent_of_mem_acc {l acc : List String} {a : String}
    (h : a ∈ acc) : a ∈ l.foldl pushIfAbsent acc := by
  induction l generalizing acc with
  | nil => exact h
  | cons w l ih => exact ih (mem_pushIfAbsent_of_mem w h)

theorem mem_foldl_pushIfAbsent_of_mem {l acc : List String} {a : String}
    (h : a ∈ l) : a ∈ l.foldl pushIfAbsent acc := by
  induction l generalizing acc with
  | nil => cases h
  | cons w l ih =>
    simp only [List.foldl_cons]
    rcases List.mem_cons.mp h with rfl | h
    · exact mem_foldl_pushIfAbsent_of_mem_acc (self_mem_pushIfAbsent acc a)
    · exact ih h

theorem entryStep_depEnabled (d : String) (st : ActState) (e : FeatureTableEntry) :
    (entryStep d st e).depEnabled = (st.depEnabled || isActivator d e) := by
  cases e <;> simp only [entryStep, isActivator] <;> split <;> simp_all

theorem entryStep_queue (d : String) (st : ActState) (e : FeatureTableEntry) :
    ∃ ext, (entryStep d st e).queue = st.queue ++ ext := by
  cases e <;> simp only [entryStep]
  case feature g =>
    split
    · exact ⟨[], by simp⟩
    · exact ⟨[g], rfl⟩
  case dependency n => split <;> exact ⟨[], by simp⟩
  case weakDependencyFeature n g => split <;> exact ⟨[], by simp⟩
  case strongDependencyFeature n g => split <;> exact ⟨[], by simp⟩

theorem entryStep_enabledFeatures (d : String) (st : ActState) (e : FeatureTableEntry) :
    ∃ ext, (entryStep d st e).enabledFeatures = st.enabledFeatures ++ ext := by
  cases e <;> simp only [entryStep]
  case feature g => split <;> exact ⟨[], by simp⟩
  case dependency n => split <;> exact ⟨[], by simp⟩
  case weakDependencyFeature n g => split <;> exact ⟨[], by simp⟩
  case strongDependencyFeature n g =>
    split
    · exact pushIfAbsent_append _ _
    · exact ⟨[], by simp⟩

theorem entryStep_weakFeatures (d : String) (st : ActState) (e : FeatureTableEntry) :
    ∃ ext, (entryStep d st e).weakFeatures = st.weakFeatures ++ ext := by
  cases e <;> simp only [entryStep]
  case feature g => split <;> exact ⟨[], by simp⟩
  case dependency n => split <;> exact ⟨[], by simp⟩
  case weakDependencyFeature n g =>
    split
    · exact pushIfAbsent_append _ _
    · exact ⟨[], by simp⟩
  case strongDependencyFeature n g => split <;> exact ⟨[], by simp⟩

theorem processEntries_depEnabled (d : String) (es : List FeatureTableEntry) (st : ActState) :
    (processEntries d es st).depEnabled = (st.depEnabled || es.any (isActivator d)) := by
  induction es generalizing st with
  | nil => simp [processEntries]
  | cons e es ih =>
    simp only [processEntries, List.foldl_cons] at *
    rw [ih, entryStep_depEnabled, List.any_cons, Bool.or_assoc]

theorem processEntries_queue (d : String) (es : List FeatureTableEntry) (st : ActState) :
    ∃ ext, (processEntries d es st).queue = st.queue ++ ext := by
  induction es generalizing st with
  | nil => exact ⟨[], by simp [processEntries]⟩
  | cons e es ih =>
    simp only [processEntries, List.foldl_cons] at *
    obtain ⟨ext1, h1⟩ := entryStep_queue d st e
    obtain ⟨ext2, h2⟩ := ih (entryStep d st e)
    exact ⟨ext1 ++ ext2, by rw [h2, h1, List.append_assoc]⟩

theorem processEntries_enabledFeatures (d : String) (es : List FeatureTableEntry)
    (st : ActState) :
    ∃ ext, (processEntries d es st).enabledFeatures = st.enabledFeatures ++ ext := by
  induction es generalizing st with
  | nil => exact ⟨[], by simp [processEntries]⟩
  | cons e es ih =>
    simp only [processEntries, List.foldl_cons] at *
    obtain ⟨ext1, h1⟩ := entryStep_enabledFeatures d st e
    obtain ⟨ext2, h2⟩ := ih (entryStep d st e)
    exact ⟨ext1 ++ ext2, by rw [h2, h1, List.append_assoc]⟩

theorem processEntries_weakFeatures (d : String) (es : List FeatureTableEntry)
    (st : ActState) :
    ∃ ext, (processEntries d es st).weakFeatures = st.weakFeatures ++ ext := by
  induction es generalizing st with
  | nil => exact ⟨[], by simp [processEntries]⟩
  | cons e es ih =>
    simp only [processEntries, List.foldl_cons] at *
    obtain ⟨ext1, h1⟩ := entryStep_weakFeatures d st e
    obtain ⟨ext2, h2⟩ := ih (entryStep d st e)
    exact ⟨ext1 ++ ext2, by rw [h2, h1, List.append_assoc]⟩

theorem mem_queue_processEntries {d : String} {es : List FeatureTableEntry} {st : ActState}
    {a : String} (h : a ∈ st.queue) : a ∈ (processEntries d es st).queue := by
  obtain ⟨ext, hq⟩ := processEntries_queue d es st
  rw [hq]
  exact List.mem_append_left _ h

theorem mem_enabled_processEntries {d : String} {es : List FeatureTableEntry} {st : ActState}
    {a : String} (h : a ∈ st.enabledFeatures) :
    a ∈ (processEntries d es st).enabledFeatures := by
  obtain ⟨ext, hq⟩ := processEntries_enabledFeatures d es st
  rw [hq]
  exact List.mem_append_left _ h

theorem mem_weak_processEntries {d : String} {es : List FeatureTableEntry} {st : ActState}
    {a : String} (h : a ∈ st.weakFeatures) : a ∈ (processEntries d es st).weakFeatures := by
  obtain ⟨ext, hq⟩ := processEntries_weakFeatures d es st
  rw [hq]
  exact List.mem_append_left _ h

theorem feature_mem_queue_processEntries {d : String} {es : List FeatureTableEntry}
    {st : ActState} {g : String} (h : FeatureTableEntry.feature g ∈ es) :
    g ∈ (processEntries d es st).queue := by
  induction es generalizing st with
  | nil => cases h
  | cons e es ih =>
    simp only [processEntries, List.foldl_cons] at *
    rcases List.mem_cons.mp h with rfl | h
    · refine mem_queue_processEntries ?_
      simp only [entryStep]
      split
      · next hc => simpa using hc
      · simp
    · exact ih h

theorem strong_mem_enabled_processEntries {d : String} {es : List FeatureTableEntry}
    {st : ActState} {g : String} (h : FeatureTableEntry.strongDependencyFeature d g ∈ es) :
    g ∈ (processEntries d es st).enabledFeatures := by
  induction es generalizing st with
  | nil => cases h
  | cons e es ih =>
    simp only [processEntries, List.foldl_cons] at *
    rcases List.mem_cons.mp h with rfl | h
    · refine mem_enabled_processEntries ?_
      simp only [entryStep, beq_self_eq_true, if_pos]
      exact self_mem_pushIfAbsent _ _
    · exact ih h

theorem weak_mem_weak_processEntries {d : String} {es : List FeatureTableEntry}
    {st : ActState} {g : String} (h : FeatureTableEntry.weakDependencyFeature d g ∈ es) :
    g ∈ (processEntries d es st).weakFeatures := by
  induction es generalizing st with
  | nil => cases h
  | cons e es ih =>
    simp only [processEntries, List.foldl_cons] at *
    rcases List.mem_cons.mp h with rfl | h
    · refine mem_weak_processEntries ?_
      simp only [entryStep, beq_self_eq_true, if_pos]
      exact self_mem_pushIfAbsent _ _
    · exact ih h

theorem lookupA_mem {m : FeaturesTable} {k : String} {v : List FeatureTableEntry}
    (h : lookupA m k = some v) : (k, v) ∈ m := by
  unfold lookupA at h
  cases hf : m.find? (fun kv => kv.1 == k) with
  | none => rw [hf] at h; cases h
  | some kv =>
    rw [hf] at h
    have hm := List.mem_of_find?_eq_some hf
    have hp := List.find?_some hf
    simp only [beq_iff_eq] at hp
    simp only [Option.map_some'] at h
    cases h
    rw [← hp]
    simpa using hm

theorem actRun_queue_nil {table : FeaturesTable} {d : String} :
    ∀ {fuel : Nat} {st stF : ActState}, actRun table d fuel st = some stF → stF.queue = [] := by
  intro fuel
  induction fuel with
  | zero =>
    intro st stF h
    unfold actRun at h
    cases hq : st.queue with
    | nil => rw [hq] at h; cases h; exact hq
    | cons f rest => rw [hq] at h; cases h
  | succ fuel ih =>
    intro st stF h
    unfold actRun at h
    cases hq : st.queue with
    | nil => rw [hq] at h; cases h; exact hq
    | cons f rest => rw [hq] at h; exact ih h

theorem actRun_inv {table : FeaturesTable} {d : String} {P : ActState → Prop}
    (hstep : ∀ st, st.queue ≠ [] → P st → P (actStep table d st)) :
    ∀ {fuel : Nat} {st stF : ActState}, actRun table d fuel st = some stF → P st → P stF := by
  intro fuel
  induction fuel with
  | zero =>
    intro st stF h hP
    unfold actRun at h
    cases hq : st.queue with
    | nil => rw [hq] at h; cases h; exact hP
    | cons f rest => rw [hq] at h; cases h
  | succ fuel ih =>
    intro st stF h hP
    unfold actRun at h
    cases hq : st.queue with
    | nil => rw [hq] at h; cases h; exact hP
    | cons f rest =>
      rw [hq] at h
      exact ih h (hstep st (by rw [hq]; simp) hP)

/-- Reachability between feature names along `Feature(_)` entries of
the parsed table: the features whose entry lists the worklist will
eventually examine, starting from an enabled feature. -/
inductive Reaches (table : FeaturesTable) : String → String → Prop
  | refl (f : String) : Reaches table f f
  | step {f g h : String} {es : List FeatureTableEntry} :
      lookupA table f = some es → FeatureTableEntry.feature g ∈ es →
      Reaches table g h → Reaches table f h

/-- From feature `f`, some entry reachable along `Feature(_)` edges
activates the dependency. -/
def ReachesActivator (table : FeaturesTable) (d f : String) : Prop :=
  ∃ h es, Reaches table f h ∧ lookupA table h = some es ∧
    ∃ e ∈ es, isActivator d e = true

/-- From feature `f`, some reachable entry is
`DepStrong(d, g)`. -/
def ReachesStrong (table : FeaturesTable) (d g f : String) : Prop :=
  ∃ h es, Reaches table f h ∧ lookupA table h = some es ∧
    FeatureTableEntry.strongDependencyFeature d g ∈ es

/-- From feature `f`, some reachable entry is `DepWeak(d, g)`. -/
def ReachesWeak (table : FeaturesTable) (d g f : String) : Prop :=
  ∃ h es, Reaches table f h ∧ lookupA table h = some es ∧
    FeatureTableEntry.weakDependencyFeature d g ∈ es

/-- Invariant: the dependency is already enabled, or an activator is
still reachable from some pending feature. -/
def InvActivate (table : FeaturesTable) (d : String) (st : ActState) : Prop :=
  st.depEnabled = true ∨ ∃ f ∈ st.queue, ReachesActivator table d f

theorem actStep_eq_nil {table : FeaturesTable} {d : String} {st : ActState}
    (h : st.queue = []) : actStep table d st = st := by
  unfold actStep
  rw [h]

theorem actStep_eq_cons_none {table : FeaturesTable} {d : String} {st : ActState}
    {f : String} {rest : List String} (h : st.queue = f :: rest)
    (hl : lookupA table f = none) : actStep table d st = { st with queue := rest } := by
  unfold actStep
  rw [h]
  dsimp only
  rw [hl]

theorem actStep_eq_cons_some {table : FeaturesTable} {d : String} {st : ActState}
    {f : String} {rest : List String} {es : List FeatureTableEntry}
    (h : st.queue = f :: rest) (hl : lookupA table f = some es) :
    actStep table d st = processEntries d es { st with queue := rest } := by
  unfold actStep
  rw [h]
  dsimp only
  rw [hl]

theorem actStep_invActivate {table : FeaturesTable} {d : String} (st : ActState)
    (hP : InvActivate table d st) : InvActivate table d (actStep table d st) := by
  unfold InvActivate at *
  cases hq : st.queue with
  | nil => rw [actStep_eq_nil hq]; exact hP
  | cons f0 rest =>
    rcases hP with hen | ⟨f, hf, hra⟩
    · left
      cases hl : lookupA table f0 with
      | none => rw [actStep_eq_cons_none hq hl]; exact hen
      | some es =>
        rw [actStep_eq_cons_some hq hl, processEntries_depEnabled]
        simp [hen]
    · rw [hq] at hf
      rcases List.mem_cons.mp hf with rfl | hf
      · obtain ⟨h, es, hreach, hlook, e, he, hact⟩ := hra
        cases hreach with
        | refl =>
          rw [actStep_eq_cons_some hq hlook]
          left
          rw [processEntries_depEnabled]
          have : es.any (isActivator d) = true := List.any_eq_true.mpr ⟨e, he, hact⟩
          rw [this]
          simp
        | step hlook0 hfg hreach' =>
          next g es0 =>
            rw [actStep_eq_cons_some hq hlook0]
            right
            refine ⟨g, feature_mem_queue_processEntries hfg, h, es, hreach', hlook, e, he, hact⟩
      · right
        cases hl : lookupA table f0 with
        | none =>
          rw [actStep_eq_cons_none hq hl]
          exact ⟨f, hf, hra⟩
        | some es =>
          rw [actStep_eq_cons_some hq hl]
          exact ⟨f, mem_queue_processEntries hf, hra⟩

theorem actRun_invActivate {table : FeaturesTable} {d : String} {fuel : Nat}
    {st stF : ActState} (h : actRun table d fuel st = some stF)
    (hP : InvActivate table d st) : stF.depEnabled = true := by
  have hF := actRun_inv (fun st _ => actStep_invActivate st) h hP
  rcases hF with hen | ⟨f, hf, _⟩
  · exact hen
  · rw [actRun_queue_nil h] at hf; cases hf

/-- Invariant: the strong feature is already accumulated, or a
`DepStrong(d, g)` entry is still reachable from some pending feature. -/
def InvStrong (table : FeaturesTable) (d g : String) (st : ActState) : Prop :=
  g ∈ st.enabledFeatures ∨ ∃ f ∈ st.queue, ReachesStrong table d g f

theorem actStep_invStrong {table : FeaturesTable} {d g : String} (st : ActState)
    (hP : InvStrong table d g st) : InvStrong table d g (actStep table d st) := by
  unfold InvStrong at *
  cases hq : st.queue with
  | nil => rw [actStep_eq_nil hq]; exact hP
  | cons f0 rest =>
    rcases hP with hen | ⟨f, hf, hra⟩
    · left
      cases hl : lookupA table f0 with
      | none => rw [actStep_eq_cons_none hq hl]; exact hen
      | some es =>
        rw [actStep_eq_cons_some hq hl]
        exact mem_enabled_processEntries hen
    · rw [hq] at hf
      rcases List.mem_cons.mp hf with rfl | hf
      · obtain ⟨h, es, hreach, hlook, he⟩ := hra
        cases hreach with
        | refl =>
          rw [actStep_eq_cons_some hq hlook]
          left
          exact strong_mem_enabled_processEntries he
        | step hlook0 hfg hreach' =>
          next g' es0 =>
            rw [actStep_eq_cons_some hq hlook0]
            right
            exact ⟨g', feature_mem_queue_processEntries hfg, h, es, hreach', hlook, he⟩
      · right
        cases hl : lookupA table f0 with
        | none =>
          rw [actStep_eq_cons_none hq hl]
          exact ⟨f, hf, hra⟩
        | some es =>
          rw [actStep_eq_cons_some hq hl]
          exact ⟨f, mem_queue_processEntries hf, hra⟩

theorem actRun_invStrong {table : FeaturesTable} {d g : String} {fuel : Nat}
    {st stF : ActState} (h : actRun table d fuel st = some stF)
    (hP : InvStrong table d g st) : g ∈ stF.enabledFeatures := by
  have hF := actRun_inv (fun st _ => actStep_invStrong st) h hP
  rcases hF with hen | ⟨f, hf, _⟩
  · exact hen
  · rw [actRun_queue_nil h] at hf; cases hf

/-- Invariant: the weak feature is already accumulated, or a
`DepWeak(d, g)` entry is still reachable from some pending feature. -/
def InvWeak (table : FeaturesTable) (d g : String) (st : ActState) : Prop :=
  g ∈ st.weakFeatures ∨ ∃ f ∈ st.queue, ReachesWeak table d g f

theorem actStep_invWeak {table : FeaturesTable} {d g : String} (st : ActState)
    (hP : InvWeak table d g st) : InvWeak table d g (actStep table d st) := by
  unfold InvWeak at *
  cases hq : st.queue with
  | nil => rw [actStep_eq_nil hq]; exact hP
  | cons f0 rest =>
    rcases hP with hen | ⟨f, hf, hra⟩
    · left
      cases hl : lookupA table f0 with
      | none => rw [actStep_eq_cons_none hq hl]; exact hen
      | some es =>
        rw [actStep_eq_cons_some hq hl]
        exact mem_weak_processEntries hen
    · rw [hq] at hf
      rcases List.mem_cons.mp hf with rfl | hf
      · obtain ⟨h, es, hreach, hlook, he⟩ := hra
        cases hreach with
        | refl =>
          rw [actStep_eq_cons_some hq hlook]
          left
          exact weak_mem_weak_processEntries he
        | step hlook0 hfg hreach' =>
          next g' es0 =>
            rw [actStep_eq_cons_some hq hlook0]
            right
            exact ⟨g', feature_mem_queue_processEntries hfg, h, es, hreach', hlook, he⟩
      · right
        cases hl : lookupA table f0 with
        | none =>
          rw [actStep_eq_cons_none hq hl]
          exact ⟨f, hf, hra⟩
        | some es =>
          rw [actStep_eq_cons_some hq hl]
          exact ⟨f, mem_queue_processEntries hf, hra⟩

theorem actRun_invWeak {table : FeaturesTable} {d g : String} {fuel : Nat}
    {st stF : ActState} (h : actRun table d fuel st = some stF)
    (hP : InvWeak table d g st) : g ∈ stF.weakFeatures := by
  have hF := actRun_inv (fun st _ => actStep_invWeak st) h hP
  rcases hF with hen | ⟨f, hf, _⟩
  · exact hen
  · rw [actRun_queue_nil h] at hf; cases hf

theorem actStep_noActivator {table : FeaturesTable} {d : String}
    (hno : ∀ p ∈ table, ∀ e ∈ p.2, isActivator d e = false) (st : ActState) :
    (actStep table d st).depEnabled = st.depEnabled := by
  cases hq : st.queue with
  | nil => rw [actStep_eq_nil hq]
  | cons f0 rest =>
    cases hl : lookupA table f0 with
    | none => rw [actStep_eq_cons_none hq hl]
    | some es =>
      rw [actStep_eq_cons_some hq hl, processEntries_depEnabled]
      have : es.any (isActivator d) = false := by
        rw [List.any_eq_false]
        intro e he
        simp [hno (f0, es) (lookupA_mem hl) e he]
      rw [this]
      simp

theorem actRun_noActivator {table : FeaturesTable} {d : String} {fuel : Nat}
    {st stF : ActState}
    (hno : ∀ p ∈ table, ∀ e ∈ p.2, isActivator d e = false)
    (h : actRun table d fuel st = some stF) (hen : st.depEnabled = false) :
    stF.depEnabled = false := by
  refine actRun_inv (P := fun s => s.depEnabled = false) ?_ h hen
  intro st _ hP
  rw [actStep_noActivator hno, hP]

/-! ## Claim C4: feature-activation laws for optional dependencies -/

/-- C4: for an optional dependency `n` of a release and an enabled
feature set `E` fed to `get_enabled_features_for_optional_dependency`
(whenever the worklist loop completes):
a `Dep(n)` entry reached from `E` activates `n`;
a `DepStrong(n, f)` entry reached from `E` activates `n` and puts `f`
into the returned feature set;
with no activating entry anywhere in the table and no force-enabling,
the function returns `None` (so `DepWeak(n, f)` alone never activates
`n`); and a `DepWeak(n, f)` entry reached from `E` puts `f` into the
returned feature set whenever the dependency is activated. -/
theorem c4_optional_dependency_activation_laws
    (table : FeaturesTable) (E : List String) (dep : Dependency) (fuel : Nat) :
    (∀ (force : Bool) (f h : String) (es : List FeatureTableEntry)
        (r : Option (List String)),
        f ∈ E → Reaches table f h → lookupA table h = some es →
        FeatureTableEntry.dependency dep.name ∈ es →
        getEnabledFeaturesForOptionalDependency fuel table E dep force = some r →
        ∃ fs, r = some fs)
    ∧ (∀ (force : Bool) (f h g : String) (es : List FeatureTableEntry)
        (r : Option (List String)),
        f ∈ E → Reaches table f h → lookupA table h = some es →
        FeatureTableEntry.strongDependencyFeature dep.name g ∈ es →
        getEnabledFeaturesForOptionalDependency fuel table E dep force = some r →
        ∃ fs, r = some fs ∧ g ∈ fs)
    ∧ (∀ (r : Option (List String)),
        (∀ p ∈ table, ∀ e ∈ p.2, isActivator dep.name e = false) →
        getEnabledFeaturesForOptionalDependency fuel table E dep false = some r →
        r = none)
    ∧ (∀ (force : Bool) (f h g : String) (es : List FeatureTableEntry)
        (fs : List String),
        f ∈ E → Reaches table f h → lookupA table h = some es →
        FeatureTableEntry.weakDependencyFeature dep.name g ∈ es →
        getEnabledFeaturesForOptionalDependency fuel table E dep force = some (some fs) →
        g ∈ fs) := by
  refine ⟨?_, ?_, ?_, ?_⟩
  · intro force f h es r hfE hreach hlook hdep hrun
    unfold getEnabledFeaturesForOptionalDependency at hrun
    obtain ⟨stF, hstF, hfin⟩ := Option.map_eq_some'.mp hrun
    have hact : stF.depEnabled = true := by
      refine actRun_invActivate hstF ?_
      right
      exact ⟨f, hfE, h, es, hreach, hlook, .dependency dep.name, hdep, by
        simp [isActivator]⟩
    refine ⟨stF.weakFeatures.foldl pushIfAbsent stF.enabledFeatures, ?_⟩
    rw [← hfin]
    unfold finishOpt
    rw [hact]
    simp
  · intro force f h g es r hfE hreach hlook hdep hrun
    unfold getEnabledFeaturesForOptionalDependency at hrun
    obtain ⟨stF, hstF, hfin⟩ := Option.map_eq_some'.mp hrun
    have hact : stF.depEnabled = true := by
      refine actRun_invActivate hstF ?_
      right
      exact ⟨f, hfE, h, es, hreach, hlook, .strongDependencyFeature dep.name g, hdep, by
        simp [isActivator]⟩
    have hg : g ∈ stF.enabledFeatures := by
      refine actRun_invStrong hstF ?_
      right
      exact ⟨f, hfE, h, es, hreach, hlook, hdep⟩
    refine ⟨stF.weakFeatures.foldl pushIfAbsent stF.enabledFeatures, ?_, ?_⟩
    · rw [← hfin]
      unfold finishOpt
      rw [hact]
      simp
    · exact mem_foldl_pushIfAbsent_of_mem_acc hg
  · intro r hno hrun
    unfold getEnabledFeaturesForOptionalDependency at hrun
    obtain ⟨stF, hstF, hfin⟩ := Option.map_eq_some'.mp hrun
    have hen : stF.depEnabled = false := actRun_noActivator hno hstF rfl
    rw [← hfin]
    unfold finishOpt
    rw [hen]
    simp
  · intro force f h g es fs hfE hreach hlook hdep hrun
    unfold getEnabledFeaturesForOptionalDependency at hrun
    obtain ⟨stF, hstF, hfin⟩ := Option.map_eq_some'.mp hrun
    have hg : g ∈ stF.weakFeatures := by
      refine actRun_invWeak hstF ?_
      right
      exact ⟨f, hfE, h, es, hreach, hlook, hdep⟩
    unfold finishOpt at hfin
    by_cases hd : stF.depEnabled = true
    · rw [hd] at hfin
      simp only [if_true] at hfin
      cases hfin
      exact mem_foldl_pushIfAbsent_of_mem hg
    · simp only [hd] at hfin
      simp at hfin

/-- Optional dependency `n` for the C4 witness. -/
def c4Dep : Dependency := ⟨"n", "n", "r", [], true, true, none, .normal⟩

/-- Witness table with an activator, a strong and a weak entry for `n`
reachable from the enabled feature `f` through `g`. -/
def c4TableA : FeaturesTable :=
  [("f", [.feature "g"]),
   ("g", [.dependency "n", .strongDependencyFeature "n" "s",
          .weakDependencyFeature "n" "w"])]

/-- Witness table with only a weak entry for `n`. -/
def c4TableC : FeaturesTable := [("f", [.weakDependencyFeature "n" "w"])]

/-- Witness for C4 at concrete inputs: with the activator table the
dependency is activated and both the strong and the weak feature end up
enabled; with the weak-only table the dependency stays disabled. -/
theorem c4_optional_dependency_activation_laws_witness :
    (∃ fs, getEnabledFeaturesForOptionalDependency 10 c4TableA ["f"] c4Dep false
        = some (some fs) ∧ "s" ∈ fs ∧ "w" ∈ fs)
    ∧ (∀ r, getEnabledFeaturesForOptionalDependency 10 c4TableC ["f"] c4Dep false
        = some r → r = none) := by
  have heval : getEnabledFeaturesForOptionalDependency 10 c4TableA ["f"] c4Dep false
      = some (some ["s", "w"]) := by decide
  have hreach : Reaches c4TableA "f" "g" :=
    Reaches.step (show lookupA c4TableA "f" = some [.feature "g"] from rfl)
      (by simp) (Reaches.refl "g")
  constructor
  · obtain ⟨fs, hfs, hsfs⟩ :=
      (c4_optional_dependency_activation_laws c4TableA ["f"] c4Dep 10).2.1
        false "f" "g" "s"
        [.dependency "n", .strongDependencyFeature "n" "s", .weakDependencyFeature "n" "w"]
        (some ["s", "w"]) (by simp) hreach rfl (by decide) heval
    have hw :=
      (c4_optional_dependency_activation_laws c4TableA ["f"] c4Dep 10).2.2.2
        false "f" "g" "w"
        [.dependency "n", .strongDependencyFeature "n" "s", .weakDependencyFeature "n" "w"]
        fs (by simp) hreach rfl (by decide) (by rw [heval, hfs])
    exact ⟨fs, by rw [heval, hfs], hsfs, hw⟩
  · intro r hr
    exact (c4_optional_dependency_activation_laws c4TableC ["f"] c4Dep 10).2.2.1
      r (by decide) hr

/-! ## Claim C3: the worklist re-processes features and diverges -/

theorem actRun_succ_cons {table : FeaturesTable} {d : String} {fuel : Nat} {st : ActState}
    {f : String} {rest : List String} (hq : st.queue = f :: rest) :
    actRun table d (fuel + 1) st = actRun table d fuel (actStep table d st) := by
  have h : actRun table d (fuel + 1) st
      = match st.queue with
        | [] => some st
        | _ :: _ => actRun table d fuel (actStep table d st) := rfl
  rw [h, hq]

/-- A feature table whose `Feature(_)` entries form a two-cycle:
`f = ["g"]` and `g = ["f"]`. -/
def c3Table : FeaturesTable := [("f", [.feature "g"]), ("g", [.feature "f"])]

/-- The optional dependency the activation engine is asked about. -/
def c3Dep : Dependency := ⟨"d", "d", "r", [], true, true, none, .normal⟩

/-- Worklist state with `f` pending and nothing accumulated. -/
def c3St0 : ActState := ⟨["f"], [], [], false⟩

/-- Worklist state with `g` pending and nothing accumulated. -/
def c3St1 : ActState := ⟨["g"], [], [], false⟩

/-- On the cyclic table the worklist oscillates with period two: the
pending-queue membership test (`features_to_examine.contains`) cannot
see features that were already popped, so each of `f`, `g` keeps
re-enqueuing the other. -/
theorem c3_actStep_cycle :
    actStep c3Table "d" c3St0 = c3St1 ∧ actStep c3Table "d" c3St1 = c3St0 := by
  decide

theorem c3_actRun_none : ∀ fuel, actRun c3Table "d" fuel c3St0 = none := by
  intro fuel
  induction fuel using Nat.strong_induction_on with
  | _ fuel ih =>
    match fuel with
    | 0 => rfl
    | 1 => rfl
    | (m + 2) =>
      rw [actRun_succ_cons (show c3St0.queue = "f" :: [] from rfl), c3_actStep_cycle.1,
        actRun_succ_cons (show c3St1.queue = "g" :: [] from rfl), c3_actStep_cycle.2]
      exact ih m (by omega)

/-- C3: the resolver is not total. On the cyclic feature table
`{f = [g], g = [f]}` with enabled set `{f}`, the worklist of
`get_enabled_features_for_optional_dependency` re-enqueues `f` and `g`
forever (its dedup check looks only at the pending queue, there is no
seen set), so the fuelled embedding yields `none` for every fuel: the
Rust loop never terminates. -/
theorem c3_feature_worklist_never_terminates :
    ∀ fuel, getEnabledFeaturesForOptionalDependency fuel c3Table ["f"] c3Dep false = none := by
  intro fuel
  show (actRun c3Table "d" fuel c3St0).map finishOpt = none
  rw [c3_actRun_none fuel]
  rfl

/-! ## Concrete environment shared by the witnesses -/

/-- A semver engine on which every string parses and every requirement
matches every version. -/
def wSemver : SemverEngine := ⟨fun _ => true, fun _ => true, fun _ _ => true⟩

/-- A target descriptor with triple `"t"` on which no `target_*`
predicate matches. -/
def wTarget : Target := ⟨"t", fun _ => false⟩

/-- Environment whose `cfg` parser rejects everything (no witness
below feeds it a `cfg(...)` guard). -/
def wEnv : Env := ⟨wTarget, wSemver, fun _ => none⟩

/-! ## Claim C7: target-guard evaluation -/

/-- C7: target-guard evaluation for a `DependencyRef`. An absent guard
is true; a guard not starting with `cfg` is true exactly when it equals
the target's full triple; inside a `cfg(...)` expression a
`target_feature` predicate evaluates to true, a bare flag to false, and
`key = val` to `val == triple` when the key is `target` and to false
for any other key; a determinate `cfg` evaluation is returned as the
guard's value. -/
theorem c7_target_guard_evaluation (env : Env) (dep : Dependency) :
    (dep.target = none → dependencyEnabledForTarget env dep = .ok true)
    ∧ (∀ s, dep.target = some s → strStartsWith s "cfg" = false →
        dependencyEnabledForTarget env dep = .ok (s == env.target.triple))
    ∧ (∀ f, predEval env.target (.targetFeature f) = some true)
    ∧ (∀ f, predEval env.target (.flag f) = some false)
    ∧ (∀ v, predEval env.target (.keyValue "target" v) = some (v == env.target.triple))
    ∧ (∀ k v, (k == "target") = false → predEval env.target (.keyValue k v) = some false)
    ∧ (∀ s e b, dep.target = some s → strStartsWith s "cfg" = true →
        env.parseCfg s = some e → evalCfg (predEval env.target) e = some b →
        dependencyEnabledForTarget env dep = .ok b) := by
  refine ⟨?_, ?_, ?_, ?_, ?_, ?_, ?_⟩
  · intro h
    unfold dependencyEnabledForTarget
    rw [h]
  · intro s hs hcfg
    unfold dependencyEnabledForTarget
    rw [hs]
    simp [hcfg]
  · intro f
    rfl
  · intro f
    rfl
  · intro v
    simp [predEval]
  · intro k v hk
    simp [predEval, hk]
  · intro s e b hs hcfg hparse heval
    unfold dependencyEnabledForTarget
    rw [hs]
    simp [hcfg, hparse, heval]

/-- Guard parser for the C7 witness: one known `cfg` string mapping to
a single unknown-key predicate. -/
def c7ParseCfg : String → Option CfgExpr := fun s =>
  if s == "cfg(k)" then some (.pred (.keyValue "k" "v")) else none

/-- Witness environment for C7. -/
def c7Env : Env := ⟨wTarget, wSemver, c7ParseCfg⟩

/-- Dependency without a target guard. -/
def c7DepNone : Dependency := ⟨"x", "x", "r", [], false, true, none, .normal⟩

/-- Dependency guarded by the plain triple `"u"`. -/
def c7DepTriple : Dependency := ⟨"x", "x", "r", [], false, true, some "u", .normal⟩

/-- Dependency guarded by the `cfg` string recognised by
`c7ParseCfg`. -/
def c7DepCfg : Dependency := ⟨"x", "x", "r", [], false, true, some "cfg(k)", .normal⟩

/-- Witness for C7 at concrete inputs. -/
theorem c7_target_guard_evaluation_witness :
    dependencyEnabledForTarget c7Env c7DepNone = .ok true
    ∧ dependencyEnabledForTarget c7Env c7DepTriple = .ok ("u" == "t")
    ∧ predEval wTarget (.targetFeature "sse2") = some true
    ∧ predEval wTarget (.flag "fancy") = some false
    ∧ predEval wTarget (.keyValue "target" "t") = some ("t" == "t")
    ∧ predEval wTarget (.keyValue "k" "v") = some false
    ∧ dependencyEnabledForTarget c7Env c7DepCfg = .ok false := by
  refine ⟨?_, ?_, ?_, ?_, ?_, ?_, ?_⟩
  · exact (c7_target_guard_evaluation c7Env c7DepNone).1 rfl
  · exact (c7_target_guard_evaluation c7Env c7DepTriple).2.1 "u" rfl (by decide)
  · exact (c7_target_guard_evaluation c7Env c7DepNone).2.2.1 "sse2"
  · exact (c7_target_guard_evaluation c7Env c7DepNone).2.2.2.1 "fancy"
  · exact (c7_target_guard_evaluation c7Env c7DepNone).2.2.2.2.1 "t"
  · exact (c7_target_guard_evaluation c7Env c7DepNone).2.2.2.2.2.1 "k" "v" (by decide)
  · exact (c7_target_guard_evaluation c7Env c7DepCfg).2.2.2.2.2.2 "cfg(k)"
      (.pred (.keyValue "k" "v")) false rfl (by decide) rfl
      (by simp [evalCfg, predEval])

/-! ## Claim C10: indeterminate cfg guards are treated as enabled -/

mutual
/-- The expression contains a predicate outside the four kinds the
evaluator closure supports (the `_ => None` arm of
`src_registry.rs:466-474`). -/
def containsUnsupported : CfgExpr → Bool
  | .pred .other => true
  | .pred _ => false
  | .all es => containsUnsupportedL es
  | .any es => containsUnsupportedL es
  | .not e => containsUnsupported e

/-- Some expression of the list contains an unsupported predicate. -/
def containsUnsupportedL : List CfgExpr → Bool
  | [] => false
  | e :: es => containsUnsupported e || containsUnsupportedL es
end

theorem andO_none_left (y : Option Bool) : andO none y = none := by cases y <;> rfl

theorem andO_none_right (x : Option Bool) : andO x none = none := by cases x <;> rfl

theorem orO_none_left (y : Option Bool) : orO none y = none := by cases y <;> rfl

theorem orO_none_right (x : Option Bool) : orO x none = none := by cases x <;> rfl

mutual
theorem evalCfg_unsupported (p : CfgPred → Option Bool) (hp : p .other = none) :
    ∀ e, containsUnsupported e = true → evalCfg p e = none
  | .pred q, h => by
    cases q
    case other => simpa [evalCfg] using hp
    all_goals simp [containsUnsupported] at h
  | .all es, h => by
    have hh := evalAll_unsupported p hp es (by simpa [containsUnsupported] using h)
    simpa [evalCfg] using hh
  | .any es, h => by
    have hh := evalAny_unsupported p hp es (by simpa [containsUnsupported] using h)
    simpa [evalCfg] using hh
  | .not e, h => by
    have hh := evalCfg_unsupported p hp e (by simpa [containsUnsupported] using h)
    simp [evalCfg, hh, notO]

theorem evalAll_unsupported (p : CfgPred → Option Bool) (hp : p .other = none) :
    ∀ es, containsUnsupportedL es = true → evalAll p es = none
  | e :: es, h => by
    simp only [containsUnsupportedL, Bool.or_eq_true] at h
    rcases h with h | h
    · simp [evalAll, evalCfg_unsupported p hp e h, andO_none_left]
    · simp [evalAll, evalAll_unsupported p hp es h, andO_none_right]

theorem evalAny_unsupported (p : CfgPred → Option Bool) (hp : p .other = none) :
    ∀ es, containsUnsupportedL es = true → evalAny p es = none
  | e :: es, h => by
    simp only [containsUnsupportedL, Bool.or_eq_true] at h
    rcases h with h | h
    · simp [evalAny, evalCfg_unsupported p hp e h, orO_none_left]
    · simp [evalAny, evalAny_unsupported p hp es h, orO_none_right]
end

/-- C10: for a `DependencyRef` whose `cfg(...)` guard parses but
contains a predicate outside the supported kinds, the whole evaluation
is indeterminate (the three-valued conjunction and disjunction need
both operands determinate), and the `None => Ok(true)` arm
(`src_registry.rs:478`) then treats the guard as true: the dependency
is considered enabled for the target. -/
theorem c10_unsupported_predicate_guard_enabled (env : Env) (dep : Dependency) :
    ∀ s e, dep.target = some s → strStartsWith s "cfg" = true →
      env.parseCfg s = some e → containsUnsupported e = true →
      dependencyEnabledForTarget env dep = .ok true := by
  intro s e hs hcfg hparse hun
  unfold dependencyEnabledForTarget
  rw [hs]
  simp [hcfg, hparse, evalCfg_unsupported (predEval env.target) rfl e hun]

/-- Guard parser for the C10 witness: the guard string maps to
`any(flag, <unsupported>)`, whose determinate part alone would be
false. -/
def c10ParseCfg : String → Option CfgExpr := fun s =>
  if s == "cfg(any(fl, unsup))" then some (.any [.pred (.flag "fl"), .pred .other])
  else none

/-- Witness environment for C10. -/
def c10Env : Env := ⟨wTarget, wSemver, c10ParseCfg⟩

/-- Dependency guarded by the `cfg` string recognised by
`c10ParseCfg`. -/
def c10Dep : Dependency :=
  ⟨"x", "x", "r", [], false, true, some "cfg(any(fl, unsup))", .normal⟩

/-- Witness for C10 at a concrete input. -/
theorem c10_unsupported_predicate_guard_enabled_witness :
    dependencyEnabledForTarget c10Env c10Dep = .ok true := by
  exact c10_unsupported_predicate_guard_enabled c10Env c10Dep
    "cfg(any(fl, unsup))" (.any [.pred (.flag "fl"), .pred .other]) rfl (by decide) rfl
    (by simp [containsUnsupported, containsUnsupportedL])

/-! ## Claim C6: release selection and its error conditions -/

theorem getDependencyCrateVersionGo_all_parse (env : Env) (reqStr : String) :
    ∀ vs, (∀ v ∈ vs, env.semver.parseVerOk v.version = true) →
      getDependencyCrateVersionGo env reqStr vs
        = .ok (vs.find? (fun v => env.semver.reqMatches reqStr v.version)) := by
  intro vs
  induction vs with
  | nil => intro _; rfl
  | cons v vs ih =>
    intro h
    have hv := h v (List.mem_cons_self v vs)
    unfold getDependencyCrateVersionGo
    rw [hv]
    cases hm : env.semver.reqMatches reqStr v.version with
    | true => simp [List.find?_cons, hm]
    | false =>
      simp only [List.find?_cons, hm, if_true, if_false, Bool.false_eq_true, ite_false]
      exact ih (fun w hw => h w (List.mem_cons_of_mem v hw))

theorem getDependencyCrateVersionGo_error (env : Env) (reqStr : String) :
    ∀ vs e, getDependencyCrateVersionGo env reqStr vs = .error e →
      e = .semVerVersion ∧ ∃ v ∈ vs, env.semver.parseVerOk v.version = false := by
  intro vs
  induction vs with
  | nil => intro e h; cases h
  | cons v vs ih =>
    intro e h
    unfold getDependencyCrateVersionGo at h
    by_cases hv : env.semver.parseVerOk v.version = true
    · rw [if_pos hv] at h
      by_cases hm : env.semver.reqMatches reqStr v.version = true
      · rw [if_pos hm] at h
        cases h
      · rw [if_neg hm] at h
        obtain ⟨he, w, hw, hpw⟩ := ih e h
        exact ⟨he, w, List.mem_cons_of_mem v hw, hpw⟩
    · rw [if_neg hv] at h
      cases h
      exact ⟨rfl, v, List.mem_cons_self v vs, by simpa using hv⟩

theorem mem_insertV {s : List Version} {v w : Version} (h : w ∈ insertV s v) :
    w ∈ s ∨ w = v := by
  unfold insertV at h
  split at h
  · exact Or.inl h
  · rcases List.mem_append.mp h with h | h
    · exact Or.inl h
    · simp only [List.mem_singleton] at h
      exact Or.inr h

theorem addDependency_ok_some {env : Env} {index : Index} {dep : Dependency} {dl : Bool}
    {req : List Version} {v : Version} {req2 : List Version}
    (h : addDependency env index dep dl req = .ok (some v, req2)) :
    v.download = dl ∧ req2 = insertV req v := by
  unfold addDependency at h
  cases hc : index.getCrate dep.crateName with
  | none => rw [hc] at h; cases h
  | some c =>
    rw [hc] at h
    dsimp only at h
    cases hg : getDependencyCrateVersion env dep c with
    | error e => rw [hg] at h; cases h
    | ok o =>
      rw [hg] at h
      cases o with
      | none => cases h
      | some iv =>
        cases h
        exact ⟨rfl, rfl⟩

theorem addDependency_ok_none {env : Env} {index : Index} {dep : Dependency} {dl : Bool}
    {req : List Version} {req2 : List Version}
    (h : addDependency env index dep dl req = .ok (none, req2)) : req2 = req := by
  unfold addDependency at h
  cases hc : index.getCrate dep.crateName with
  | none => rw [hc] at h; cases h
  | some c =>
    rw [hc] at h
    dsimp only at h
    cases hg : getDependencyCrateVersion env dep c with
    | error e => rw [hg] at h; cases h
    | ok o =>
      rw [hg] at h
      cases o with
      | none => cases h; rfl
      | some iv => cases h

/-- C6: release selection for a `DependencyRef`. The selected release
is the first one, scanning the package's releases newest-first and
skipping yanked ones, whose version matches the requirement. Fatal
errors arise exactly from: package not found in the store, unparsable
requirement string, or an unparsable candidate version string
encountered during the scan; when no compatible release exists the
result is `Ok(None)` and `add_dependency` leaves the closure set
unchanged (a warning only). -/
theorem c6_release_selection (env : Env) (index : Index) (dep : Dependency) (dl : Bool)
    (req : List Version) :
    (index.getCrate dep.crateName = none →
        addDependency env index dep dl req = .error .crateNotFound)
    ∧ (∀ c, env.semver.parseReqOk dep.requirement = false →
        getDependencyCrateVersion env dep c = .error .semVerRequirement)
    ∧ (∀ c, env.semver.parseReqOk dep.requirement = true →
        (∀ v ∈ c.versions, env.semver.parseVerOk v.version = true) →
        getDependencyCrateVersion env dep c
          = .ok ((c.versions.reverse.filter (fun v => !v.yanked)).find?
              (fun v => env.semver.reqMatches dep.requirement v.version)))
    ∧ (∀ c e, getDependencyCrateVersion env dep c = .error e →
        e = .semVerRequirement ∨
          (e = .semVerVersion ∧ ∃ v ∈ c.versions, env.semver.parseVerOk v.version = false))
    ∧ (∀ c, index.getCrate dep.crateName = some c →
        getDependencyCrateVersion env dep c = .ok none →
        addDependency env index dep dl req = .ok (none, req)) := by
  refine ⟨?_, ?_, ?_, ?_, ?_⟩
  · intro h
    unfold addDependency
    rw [h]
  · intro c h
    unfold getDependencyCrateVersion
    rw [h]
    rfl
  · intro c h hall
    unfold getDependencyCrateVersion
    rw [h]
    simp only [if_true]
    refine getDependencyCrateVersionGo_all_parse env dep.requirement _ ?_
    intro v hv
    have : v ∈ c.versions := List.mem_reverse.mp (List.mem_filter.mp hv).1
    exact hall v this
  · intro c e h
    unfold getDependencyCrateVersion at h
    by_cases hr : env.semver.parseReqOk dep.requirement = true
    · rw [if_pos hr] at h
      obtain ⟨he, v, hv, hpv⟩ := getDependencyCrateVersionGo_error env dep.requirement _ e h
      right
      exact ⟨he, v, List.mem_reverse.mp (List.mem_filter.mp hv).1, hpv⟩
    · rw [if_neg hr] at h
      cases h
      left
      rfl
  · intro c hc hg
    unfold addDependency
    rw [hc]
    dsimp only
    rw [hg]

/-- Semver engine for the C6 witness: `"badreq"` and `"badver"` fail
to parse, and only version `"1.0.0"` matches any requirement. -/
def c6Semver : SemverEngine :=
  ⟨fun r => r != "badreq", fun v => v != "badver", fun _ v => v == "1.0.0"⟩

/-- Witness environment for C6. -/
def c6Env : Env := ⟨wTarget, c6Semver, fun _ => none⟩

/-- Old compatible release. -/
def c6A : IndexVersion := ⟨"p", "0.9.0", false, [], []⟩

/-- The release that must be selected. -/
def c6B : IndexVersion := ⟨"p", "1.0.0", false, [], []⟩

/-- Newest release, yanked and so skipped. -/
def c6C : IndexVersion := ⟨"p", "2.0.0", true, [], []⟩

/-- Package `p`, releases oldest-first. -/
def c6Crate : Crate := ⟨"p", [c6A, c6B, c6C]⟩

/-- Package whose newest release has an unparsable version string. -/
def c6CrateBad : Crate := ⟨"p", [c6A, ⟨"p", "badver", false, [], []⟩]⟩

/-- Package with no compatible release. -/
def c6CrateNoMatch : Crate := ⟨"q", [c6A]⟩

/-- Witness store for C6. -/
def c6Index : Index := ⟨[c6Crate, c6CrateNoMatch]⟩

/-- Dependency on `p` with a parsable requirement. -/
def c6Dep : Dependency := ⟨"p", "p", "r", [], false, true, none, .normal⟩

/-- Dependency with an unparsable requirement. -/
def c6DepBad : Dependency := ⟨"p", "p", "badreq", [], false, true, none, .normal⟩

/-- Dependency on a package missing from the store. -/
def c6DepMissing : Dependency := ⟨"m", "m", "r", [], false, true, none, .normal⟩

/-- Dependency on the package with no compatible release. -/
def c6DepNoMatch : Dependency := ⟨"q", "q", "r", [], false, true, none, .normal⟩

/-- Witness for C6 at concrete inputs: missing package is fatal, bad
requirement is fatal, the newest non-yanked matching release is
selected, a bad candidate version gives the version-parse error, and a
missing compatible release leaves the closure unchanged. -/
theorem c6_release_selection_witness :
    addDependency c6Env c6Index c6DepMissing true [] = .error .crateNotFound
    ∧ getDependencyCrateVersion c6Env c6DepBad c6Crate = .error .semVerRequirement
    ∧ getDependencyCrateVersion c6Env c6Dep c6Crate = .ok (some c6B)
    ∧ (∃ v ∈ c6CrateBad.versions, c6Semver.parseVerOk v.version = false)
    ∧ addDependency c6Env c6Index c6DepNoMatch true [] = .ok (none, []) := by
  refine ⟨?_, ?_, ?_, ?_, ?_⟩
  · exact (c6_release_selection c6Env c6Index c6DepMissing true []).1 (by decide)
  · exact (c6_release_selection c6Env c6Index c6DepBad true []).2.1 c6Crate (by decide)
  · have h := (c6_release_selection c6Env c6Index c6Dep true []).2.2.1 c6Crate
      (by decide) (by decide)
    exact h.trans (by decide)
  · have h := (c6_release_selection c6Env c6Index c6Dep true []).2.2.2.1 c6CrateBad
      .semVerVersion (by decide)
    rcases h with h | ⟨_, hex⟩
    · cases h
    · exact hex
  · exact (c6_release_selection c6Env c6Index c6DepNoMatch true []).2.2.2.2 c6CrateNoMatch
      (by decide) (by decide)

/-! ## Claim C8: download-flag propagation -/

theorem processDep_ok {env : Env} {index : Index} {fuel : Nat} {table : FeaturesTable}
    {feats : List String} {dep : Dependency} {pd force : Bool} {req req2 : List Version}
    {edo : Option EnabledDependency}
    (h : processDep env index fuel table feats dep pd force req = some (.ok (req2, edo))) :
    ∃ g, dependencyEnabledForTarget env dep = .ok g ∧
      ((req2 = req ∧ edo = none) ∨
        ∃ v, addDependency env index dep (pd && g) req = .ok (some v, req2) ∧
          ∃ fs, edo = some ⟨v, fs, dep.defaultFeatures⟩) := by
  unfold processDep at h
  cases hg : dependencyEnabledForTarget env dep with
  | error e => rw [hg] at h; cases h
  | ok g =>
    rw [hg] at h
    dsimp only at h
    refine ⟨g, rfl, ?_⟩
    by_cases hopt : dep.optional = true
    · rw [if_pos hopt] at h
      cases hact : getEnabledFeaturesForOptionalDependency fuel table feats dep force with
      | none => rw [hact] at h; cases h
      | some o =>
        rw [hact] at h
        cases o with
        | none =>
          cases h
          exact Or.inl ⟨rfl, rfl⟩
        | some fs =>
          cases hadd : addDependency env index dep (pd && g) req with
          | error e => rw [hadd] at h; cases h
          | ok pr =>
            rw [hadd] at h
            obtain ⟨vo, req'⟩ := pr
            cases vo with
            | none =>
              cases h
              exact Or.inl ⟨addDependency_ok_none hadd, rfl⟩
            | some v =>
              cases h
              exact Or.inr ⟨v, rfl, fs, rfl⟩
    · rw [if_neg hopt] at h
      cases hact : getEnabledFeaturesForDependency fuel table feats dep with
      | none => rw [hact] at h; cases h
      | some fs =>
        rw [hact] at h
        cases hadd : addDependency env index dep (pd && g) req with
        | error e => rw [hadd] at h; cases h
        | ok pr =>
          rw [hadd] at h
          obtain ⟨vo, req'⟩ := pr
          cases vo with
          | none =>
            cases h
            exact Or.inl ⟨addDependency_ok_none hadd, rfl⟩
          | some v =>
            cases h
            exact Or.inr ⟨v, rfl, fs, rfl⟩

/-- C8: in the per-dependency body of the closure walk, the download
flag computed for a child equals `parentDownload && guard` (for
`process_enabled_dependency`, `parentDownload` is the parent's download
flag): the enabled child handed to the recursion carries exactly that
flag; and with a `false` parent flag every closure element added by the
step is flagged `false` (index-only) while the dependency is still
visited and inserted. -/
theorem c8_download_flag_propagation (env : Env) (index : Index) (fuel : Nat)
    (table : FeaturesTable) (feats : List String) (dep : Dependency)
    (parentDownload force : Bool) (req : List Version) (g : Bool)
    (hg : dependencyEnabledForTarget env dep = .ok g) :
    (∀ req2 ed, processDep env index fuel table feats dep parentDownload force req
        = some (.ok (req2, some ed)) →
        ed.crateVersion.download = (parentDownload && g))
    ∧ (parentDownload = false →
        ∀ req2 edo, processDep env index fuel table feats dep parentDownload force req
          = some (.ok (req2, edo)) →
          (∀ v ∈ req2, v ∈ req ∨ v.download = false)
          ∧ ∀ ed, edo = some ed → ed.crateVersion.download = false) := by
  constructor
  · intro req2 ed h
    obtain ⟨g', hg', hcase⟩ := processDep_ok h
    rw [hg] at hg'
    cases hg'
    rcases hcase with ⟨_, habs⟩ | ⟨v, hadd, fs, hed⟩
    · cases habs
    · cases hed
      exact (addDependency_ok_some hadd).1
  · intro hpd req2 edo h
    obtain ⟨g', hg', hcase⟩ := processDep_ok h
    rw [hg] at hg'
    cases hg'
    rcases hcase with ⟨hreq, hedo⟩ | ⟨v, hadd, fs, hed⟩
    · subst hreq
      subst hedo
      exact ⟨fun v hv => Or.inl hv, fun ed hed => by cases hed⟩
    · obtain ⟨hdl, hreq2⟩ := addDependency_ok_some hadd
      subst hreq2
      subst hed
      rw [hpd] at hdl
      simp only [Bool.false_and] at hdl
      refine ⟨?_, ?_⟩
      · intro w hw
        rcases mem_insertV hw with hw | hw
        · exact Or.inl hw
        · subst hw
          exact Or.inr hdl
      · intro ed hed
        cases hed
        exact hdl

/-- Release `x 1.0.0` used by the C8 witness. -/
def c8XIv : IndexVersion := ⟨"x", "1.0.0", false, [], []⟩

/-- Store for the C8 witness. -/
def c8Index : Index := ⟨[⟨"x", [c8XIv]⟩]⟩

/-- Required unguarded dependency on `x`. -/
def c8Dep : Dependency := ⟨"x", "x", "r", [], false, true, none, .normal⟩

/-- Witness for C8 at a concrete input: with a `false` parent flag and
a true guard, the child is added index-only and the recursion child
carries flag `false && true`. -/
theorem c8_download_flag_propagation_witness :
    (⟨⟨c8XIv, false⟩, [], true⟩ : EnabledDependency).crateVersion.download = (false && true)
    ∧ (∀ v ∈ [(⟨c8XIv, false⟩ : Version)], v ∈ ([] : List Version) ∨ v.download = false) := by
  have h := c8_download_flag_propagation wEnv c8Index 5 [] [] c8Dep false false [] true rfl
  refine ⟨?_, ?_⟩
  · exact h.1 [⟨c8XIv, false⟩] ⟨⟨c8XIv, false⟩, [], true⟩ (by decide)
  · exact (h.2 rfl [⟨c8XIv, false⟩] (some ⟨⟨c8XIv, false⟩, [], true⟩) (by decide)).1

/-! ## Claim C1: the download flag is kept from the first context -/

/-- Release `x 1.0.0`, reachable twice from the root. -/
def c1XIv : IndexVersion := ⟨"x", "1.0.0", false, [], []⟩

/-- Dependency on `x` guarded by a plain triple different from the
target's: the guard evaluates false, so the child flag is computed as
`false`. -/
def c1DepGuarded : Dependency := ⟨"x", "x", "r", [], false, false, some "other", .normal⟩

/-- Unguarded dependency on `x`: child flag `true`. -/
def c1DepPlain : Dependency := ⟨"x", "x", "r", [], false, false, none, .normal⟩

/-- Root `a 1.0.0`, reaching `x` first index-only and then for
download. -/
def c1AIv : IndexVersion := ⟨"a", "1.0.0", false, [c1DepGuarded, c1DepPlain], []⟩

/-- Store for C1. -/
def c1Index : Index := ⟨[⟨"x", [c1XIv]⟩, ⟨"a", [c1AIv]⟩]⟩

/-- C1: the stored download flag is the one of the first context that
reached the release, not the OR of all contexts. Root `a` reaches `x`
first under a false target guard (flag `false`) and immediately after
without a guard (flag `true`); the returned closure stores `x` with
flag `false`, because the `HashSet::insert` of `add_dependency` keeps
the already-present element — the spec's `download_child ∨
closure[..].download` merge is absent from the code. -/
theorem c1_first_context_download_flag_kept :
    getRequiredDependencies wEnv c1Index 10 [⟨c1AIv, true⟩]
      = some (.ok [⟨c1XIv, false⟩])
    ∧ insertV [⟨c1XIv, false⟩] ⟨c1XIv, true⟩ = [⟨c1XIv, false⟩] := by
  decide

/-! ## Claim C2: roots are not members of the returned closure -/

/-- Root release with no dependencies and no features. -/
def c2RootIv : IndexVersion := ⟨"r", "1.0.0", false, [], []⟩

/-- Store for C2. -/
def c2Index : Index := ⟨[⟨"r", [c2RootIv]⟩]⟩

/-- C2 counterexample: for the singleton root set `{r 1.0.0}` (a
release with no dependencies), the returned closure is empty — the
root itself is not a member with flag `true` (or any flag):
`get_required_dependencies` never inserts the roots, only selected
dependencies. -/
theorem c2_counterexample_root_not_in_closure :
    getRequiredDependencies wEnv c2Index 10 [⟨c2RootIv, true⟩] = some (.ok [])
    ∧ memKey [] ⟨c2RootIv, true⟩ = false := by
  decide

theorem parseThenGrow_trivial {cv : IndexVersion} (h1 : cv.dependencies = [])
    (h2 : cv.features = []) : parseThenGrowFeaturesTable cv = .ok [] := by
  unfold parseThenGrowFeaturesTable
  rw [h1, h2]
  rfl

theorem processRoot_no_deps {env : Env} {index : Index} {fuel : Nat} {r : Version}
    {req : List Version} (h1 : r.iv.dependencies = []) (h2 : r.iv.features = []) :
    processRoot env index fuel r req = some (.ok req) := by
  unfold processRoot
  rw [parseThenGrow_trivial h1 h2]
  dsimp only
  rw [h1]
  simp [processDeps, processEDs]

theorem getRequiredDependenciesAux_no_deps (env : Env) (index : Index) (fuel : Nat) :
    ∀ (roots : List Version) (req : List Version),
      (∀ r ∈ roots, r.iv.dependencies = [] ∧ r.iv.features = []) →
      getRequiredDependenciesAux env index fuel roots req = some (.ok req) := by
  intro roots
  induction roots with
  | nil => intro req _; rfl
  | cons r roots ih =>
    intro req h
    unfold getRequiredDependenciesAux
    rw [processRoot_no_deps (h r (List.mem_cons_self r roots)).1
      (h r (List.mem_cons_self r roots)).2]
    exact ih req (fun w hw => h w (List.mem_cons_of_mem r hw))

/-- C2 amended: the resolver inserts only releases selected as
dependencies; the roots themselves are never added. In particular a
root set of releases without dependencies yields the empty closure
(rather than the root set flagged for download). -/
theorem c2_amended_roots_not_inserted (env : Env) (index : Index) (fuel : Nat)
    (roots : List Version)
    (h : ∀ r ∈ roots, r.iv.dependencies = [] ∧ r.iv.features = []) :
    getRequiredDependencies env index fuel roots = some (.ok []) :=
  getRequiredDependenciesAux_no_deps env index fuel roots [] h

/-- Witness for the amended C2 at a concrete root set. -/
theorem c2_amended_roots_not_inserted_witness :
    getRequiredDependencies wEnv c2Index 3 [⟨c2RootIv, true⟩] = some (.ok []) :=
  c2_amended_roots_not_inserted wEnv c2Index 3 [⟨c2RootIv, true⟩] (by decide)

/-! ## Claim C9: download flags depend on the enumeration order -/

/-- Root `a`, reaching `x` through a false guard only. -/
def c9AIv : IndexVersion := ⟨"a", "1.0.0", false, [c1DepGuarded], []⟩

/-- Root `b`, reaching `x` unguarded. -/
def c9BIv : IndexVersion := ⟨"b", "1.0.0", false, [c1DepPlain], []⟩

/-- Store for C9. -/
def c9Index : Index := ⟨[⟨"x", [c1XIv]⟩, ⟨"a", [c9AIv]⟩, ⟨"b", [c9BIv]⟩]⟩

/-- C9 counterexample: the same two-root set processed in the two
possible enumeration orders (the Rust `HashSet` iteration order is
unspecified) yields closures that agree as sets of `(name, version)`
but carry different download flags on `x` — the first context to
insert wins, so the runs are not flag-identical. -/
theorem c9_counterexample_order_dependent_flags :
    getRequiredDependencies wEnv c9Index 10 [⟨c9AIv, true⟩, ⟨c9BIv, true⟩]
      = some (.ok [⟨c1XIv, false⟩])
    ∧ getRequiredDependencies wEnv c9Index 10 [⟨c9BIv, true⟩, ⟨c9AIv, true⟩]
      = some (.ok [⟨c1XIv, true⟩])
    ∧ ¬([(⟨c1XIv, false⟩ : Version)] = [⟨c1XIv, true⟩])
    ∧ List.map (fun v : Version => (v.iv.name, v.iv.version)) [⟨c1XIv, false⟩]
      = List.map (fun v : Version => (v.iv.name, v.iv.version)) [⟨c1XIv, true⟩] := by
  decide

/-- C9 amended: the resolver is deterministic relative to the
enumeration order of the root set: two runs over the same root
sequence (and the download flags of the roots themselves are ignored
by root processing) yield identical closures. Different enumeration
orders of the same set may differ in download flags (see the
counterexample). -/
theorem c9_amended_deterministic_given_order (env : Env) (index : Index) (fuel : Nat) :
    (∀ roots1 roots2 : List Version, roots1 = roots2 →
      getRequiredDependencies env index fuel roots1
        = getRequiredDependencies env index fuel roots2)
    ∧ (∀ (iv : IndexVersion) (d d' : Bool) (req : List Version),
      processRoot env index fuel ⟨iv, d⟩ req = processRoot env index fuel ⟨iv, d'⟩ req) := by
  constructor
  · intro r1 r2 h
    rw [h]
  · intro iv d d' req
    rfl

/-- Witness for the amended C9 at concrete inputs. -/
theorem c9_amended_deterministic_given_order_witness :
    getRequiredDependencies wEnv c9Index 10 [⟨c9AIv, true⟩, ⟨c9BIv, true⟩]
      = getRequiredDependencies wEnv c9Index 10 [⟨c9AIv, true⟩, ⟨c9BIv, true⟩] :=
  (c9_amended_deterministic_given_order wEnv c9Index 10).1 _ _ rfl

/-! ## Claim C5: the implicit-feature rule -/

/-- The ref name a raw entry marks implicit-feature-suppressed: the
name its parse removes from the implicit set (`some` exactly for the
`dep:`-prefixed forms). -/
def entrySuppression (cv : IndexVersion) (e : String) : Option String :=
  match parseFeatureTableEntry cv e with
  | .ok (_, supp) => supp
  | .error _ => none

theorem parseEntries_implicits {cv : IndexVersion} :
    ∀ {es : List String} {impl : List String} {pes : List FeatureTableEntry}
      {impl' : List String},
      parseEntries cv es impl = .ok (pes, impl') →
      ∀ n, n ∈ impl' ↔ (n ∈ impl ∧ ∀ e ∈ es, ¬ entrySuppression cv e = some n) := by
  intro es
  induction es with
  | nil =>
    intro impl pes impl' h n
    cases h
    simp
  | cons e es ih =>
    intro impl pes impl' h n
    unfold parseEntries at h
    cases hp : parseFeatureTableEntry cv e with
    | error err => rw [hp] at h; cases h
    | ok pr =>
      rw [hp] at h
      obtain ⟨pe, supp⟩ := pr
      dsimp only at h
      have hsup : entrySuppression cv e = supp := by
        unfold entrySuppression
        rw [hp]
      cases supp with
      | none =>
        cases hrest : parseEntries cv es impl with
        | error err => rw [hrest] at h; cases h
        | ok pr2 =>
          rw [hrest] at h
          obtain ⟨pes2, impl2⟩ := pr2
          cases h
          rw [ih hrest n]
          constructor
          · rintro ⟨hmem, hall⟩
            refine ⟨hmem, ?_⟩
            intro q hq
            rcases List.mem_cons.mp hq with rfl | hq
            · rw [hsup]
              simp
            · exact hall q hq
          · rintro ⟨hmem, hall⟩
            exact ⟨hmem, fun q hq => hall q (List.mem_cons_of_mem e hq)⟩
      | some m =>
        cases hrest : parseEntries cv es (removeName impl m) with
        | error err => rw [hrest] at h; cases h
        | ok pr2 =>
          rw [hrest] at h
          obtain ⟨pes2, impl2⟩ := pr2
          cases h
          rw [ih hrest n]
          unfold removeName
          rw [List.mem_filter]
          simp only [decide_eq_true_eq]
          constructor
          · rintro ⟨⟨hmem, hne⟩, hall⟩
            refine ⟨hmem, ?_⟩
            intro q hq
            rcases List.mem_cons.mp hq with rfl | hq
            · rw [hsup]
              simp only [Option.some.injEq]
              exact fun hmn => hne hmn.symm
            · exact hall q hq
          · rintro ⟨hmem, hall⟩
            have hne : n ≠ m := by
              have := hall e (List.mem_cons_self e es)
              rw [hsup] at this
              simp only [Option.some.injEq] at this
              exact fun hnm => this hnm.symm
            exact ⟨⟨hmem, hne⟩, fun q hq => hall q (List.mem_cons_of_mem e hq)⟩

theorem parseFeatures_implicits {cv : IndexVersion} :
    ∀ {fl : List (String × List String)} {table : FeaturesTable} {impl : List String}
      {table' : FeaturesTable} {impl' : List String},
      parseFeatures cv fl table impl = .ok (table', impl') →
      ∀ n, n ∈ impl' ↔
        (n ∈ impl ∧ ∀ p ∈ fl, ∀ e ∈ p.2, ¬ entrySuppression cv e = some n) := by
  intro fl
  induction fl with
  | nil =>
    intro table impl t' i' h n
    cases h
    simp
  | cons p fl ih =>
    intro table impl t' i' h n
    unfold parseFeatures at h
    obtain ⟨feat, entries⟩ := p
    dsimp only at h
    cases hpe : parseEntries cv entries impl with
    | error err => rw [hpe] at h; cases h
    | ok pr =>
      rw [hpe] at h
      obtain ⟨pes, impl1⟩ := pr
      rw [ih h n, parseEntries_implicits hpe n]
      constructor
      · rintro ⟨⟨hm, h1⟩, h2⟩
        refine ⟨hm, ?_⟩
        intro q hq
        rcases List.mem_cons.mp hq with rfl | hq
        · exact h1
        · exact h2 q hq
      · rintro ⟨hm, hall⟩
        exact ⟨⟨hm, hall (feat, entries) (List.mem_cons_self _ _)⟩,
          fun q hq => hall q (List.mem_cons_of_mem _ hq)⟩

theorem lookupA_cons (kv : String × List FeatureTableEntry) (t : FeaturesTable)
    (k : String) :
    lookupA (kv :: t) k = if kv.1 == k then some kv.2 else lookupA t k := by
  unfold lookupA
  by_cases h : (kv.1 == k) = true
  · rw [List.find?_cons_of_pos (p := fun kv => kv.1 == k) t h]
    simp [h]
  · rw [List.find?_cons_of_neg (p := fun kv => kv.1 == k) t h]
    simp [h]

theorem lookupA_map_set (k : String) (v : List FeatureTableEntry) :
    ∀ t : FeaturesTable,
      lookupA (t.map (fun kv => if kv.1 == k then (k, v) else kv)) k
        = if t.any (fun kv => kv.1 == k) then some v else lookupA t k := by
  intro t
  induction t with
  | nil => simp
  | cons kv t ih =>
    simp only [List.map_cons, List.any_cons]
    by_cases h : (kv.1 == k) = true
    · rw [if_pos h, lookupA_cons]
      simp [h]
    · have h' : (kv.1 == k) = false := by simpa using h
      rw [if_neg h, lookupA_cons]
      simp only [h', Bool.false_eq_true, if_false, Bool.false_or]
      rw [ih, lookupA_cons]
      simp [h']

theorem lookupA_map_set_ne (k k' : String) (v : List FeatureTableEntry)
    (hk : (k == k') = false) :
    ∀ t : FeaturesTable,
      lookupA (t.map (fun kv => if kv.1 == k then (k, v) else kv)) k'
        = lookupA t k' := by
  intro t
  induction t with
  | nil => rfl
  | cons kv t ih =>
    simp only [List.map_cons]
    by_cases h : (kv.1 == k) = true
    · have h2 : (kv.1 == k') = false := by
        rw [beq_iff_eq] at h
        rw [h]
        exact hk
      rw [if_pos h, lookupA_cons, lookupA_cons]
      simp only [hk, h2, Bool.false_eq_true, if_false]
      exact ih
    · rw [if_neg h, lookupA_cons, lookupA_cons, ih]

theorem lookupA_append_none (t1 t2 : FeaturesTable) (k : String)
    (h : lookupA t1 k = none) : lookupA (t1 ++ t2) k = lookupA t2 k := by
  induction t1 with
  | nil => simp
  | cons kv t1 ih =>
    rw [List.cons_append, lookupA_cons]
    rw [lookupA_cons] at h
    by_cases hk : (kv.1 == k) = true
    · rw [hk] at h
      simp at h
    · simp only [Bool.not_eq_true] at hk
      rw [hk] at h ⊢
      simp only [Bool.false_eq_true, if_false] at h ⊢
      exact ih h

theorem lookupA_append_single_ne (t : FeaturesTable) (k k' : String)
    (v : List FeatureTableEntry) (hk : (k == k') = false) :
    lookupA (t ++ [(k, v)]) k' = lookupA t k' := by
  induction t with
  | nil => simp [lookupA_cons, hk]
  | cons kv t ih =>
    rw [List.cons_append, lookupA_cons, lookupA_cons]
    by_cases h2 : (kv.1 == k') = true
    · simp [h2]
    · simp only [Bool.not_eq_true] at h2
      rw [h2]
      simp only [Bool.false_eq_true, if_false]
      exact ih

theorem lookupA_eq_none_of_any_eq_false {t : FeaturesTable} {k : String}
    (h : t.any (fun kv => kv.1 == k) = false) : lookupA t k = none := by
  induction t with
  | nil => rfl
  | cons kv t ih =>
    rw [List.any_cons, Bool.or_eq_false_iff] at h
    rw [lookupA_cons, h.1]
    simp only [Bool.false_eq_true, if_false]
    exact ih h.2

theorem insertA_lookup_self (t : FeaturesTable) (k : String)
    (v : List FeatureTableEntry) : lookupA (insertA t k v) k = some v := by
  unfold insertA
  by_cases h : t.any (fun kv => kv.1 == k) = true
  · rw [if_pos h, lookupA_map_set, h]
    simp
  · rw [if_neg h]
    simp only [Bool.not_eq_true] at h
    rw [lookupA_append_none _ _ _ (lookupA_eq_none_of_any_eq_false h), lookupA_cons]
    simp

theorem insertA_lookup_ne (t : FeaturesTable) (k k' : String)
    (v : List FeatureTableEntry) (hk : (k == k') = false) :
    lookupA (insertA t k v) k' = lookupA t k' := by
  unfold insertA
  by_cases h : t.any (fun kv => kv.1 == k) = true
  · rw [if_pos h, lookupA_map_set_ne _ _ _ hk]
  · rw [if_neg h, lookupA_append_single_ne _ _ _ _ hk]

theorem grow_lookup_not_mem {v : String → List FeatureTableEntry} :
    ∀ (impls : List String) (t : FeaturesTable) (n : String), n ∉ impls →
      lookupA (impls.foldl (fun t m => insertA t m (v m)) t) n = lookupA t n := by
  intro impls
  induction impls with
  | nil =>
    intro t n _
    rfl
  | cons m impls ih =>
    intro t n h
    simp only [List.foldl_cons]
    have hnm : ¬n = m := fun he => h (he ▸ List.mem_cons_self m impls)
    rw [ih _ n (fun hmem => h (List.mem_cons_of_mem m hmem)),
      insertA_lookup_ne _ _ _ _ (by simpa using fun he => hnm he.symm)]

theorem grow_lookup_mem {v : String → List FeatureTableEntry} :
    ∀ (impls : List String) (t : FeaturesTable) (n : String), n ∈ impls →
      lookupA (impls.foldl (fun t m => insertA t m (v m)) t) n = some (v n) := by
  intro impls
  induction impls with
  | nil =>
    intro t n h
    cases h
  | cons m impls ih =>
    intro t n h
    simp only [List.foldl_cons]
    by_cases hmem : n ∈ impls
    · exact ih _ n hmem
    · have hnm : n = m := by
        rcases List.mem_cons.mp h with h | h
        · exact h
        · exact absurd h hmem
      subst hnm
      rw [grow_lookup_not_mem impls _ n hmem, insertA_lookup_self]

theorem parseFeatures_lookup_none {cv : IndexVersion} :
    ∀ {fl : List (String × List String)} {table : FeaturesTable} {impl : List String}
      {table' : FeaturesTable} {impl' : List String},
      parseFeatures cv fl table impl = .ok (table', impl') →
      ∀ k, lookupA table k = none → (∀ p ∈ fl, p.1 ≠ k) → lookupA table' k = none := by
  intro fl
  induction fl with
  | nil =>
    intro table impl t' i' h k hnone _
    cases h
    exact hnone
  | cons p fl ih =>
    intro table impl t' i' h k hnone hkeys
    unfold parseFeatures at h
    obtain ⟨feat, entries⟩ := p
    dsimp only at h
    cases hpe : parseEntries cv entries impl with
    | error err => rw [hpe] at h; cases h
    | ok pr =>
      rw [hpe] at h
      obtain ⟨pes, impl1⟩ := pr
      refine ih h k ?_ (fun q hq => hkeys q (List.mem_cons_of_mem _ hq))
      have hfk : (feat == k) = false := by
        have := hkeys (feat, entries) (List.mem_cons_self _ _)
        simpa using this
      rw [insertA_lookup_ne _ _ _ _ hfk]
      exact hnone

/-- C5 (amended): after `parse_then_grow_features_table`, an implicit
`ref_name → [Dep ref_name]` binding is present for every optional
normal-or-build dependency whose ref name no entry suppresses with a
`dep:` prefix — but the insertion is unconditional
(`HashMap::insert`), so it also replaces an explicitly declared
feature of that name (the claim's "only when not already a
feature-table key" fails, see the counterexample); and a ref name that
is suppressed somewhere and is not an explicit feature key gets no
binding at all. -/
theorem c5_implicit_feature_rule (cv : IndexVersion) (table : FeaturesTable)
    (hok : parseThenGrowFeaturesTable cv = .ok table) :
    (∀ d ∈ cv.dependencies, d.optional = true →
      (d.kind = .normal ∨ d.kind = .build) →
      (∀ p ∈ cv.features, ∀ e ∈ p.2, ¬ entrySuppression cv e = some d.name) →
      lookupA table d.name = some [.dependency d.name])
    ∧ (∀ n, (∃ p ∈ cv.features, ∃ e ∈ p.2, entrySuppression cv e = some n) →
      (∀ p ∈ cv.features, p.1 ≠ n) →
      lookupA table n = none) := by
  unfold parseThenGrowFeaturesTable at hok
  dsimp only at hok
  cases hpf : parseFeatures cv cv.features []
      ((cv.dependencies.filter
        (fun d => d.optional && (d.kind == .normal || d.kind == .build))).map (·.name)) with
  | error err => rw [hpf] at hok; cases hok
  | ok pr =>
    rw [hpf] at hok
    obtain ⟨ptable, impl'⟩ := pr
    cases hok
    constructor
    · intro d hd hopt hkind hnosup
      have hmem0 : d.name ∈ (cv.dependencies.filter
          (fun d => d.optional && (d.kind == .normal || d.kind == .build))).map (·.name) := by
        refine List.mem_map.mpr ⟨d, ?_, rfl⟩
        refine List.mem_filter.mpr ⟨hd, ?_⟩
        rcases hkind with hk | hk <;> simp [hopt, hk]
      have hmem : d.name ∈ impl' :=
        (parseFeatures_implicits hpf d.name).mpr ⟨hmem0, hnosup⟩
      exact grow_lookup_mem impl' ptable d.name hmem
    · intro n hsup hkeys
      have hnot : n ∉ impl' := by
        intro hn
        obtain ⟨p, hp, e, he, hse⟩ := hsup
        exact ((parseFeatures_implicits hpf n).mp hn).2 p hp e he hse
      rw [grow_lookup_not_mem impl' ptable n hnot]
      exact parseFeatures_lookup_none hpf n rfl hkeys

/-- Optional dependency `b` for the C5 counterexample. -/
def c5DepB : Dependency := ⟨"b", "b", "r", [], true, true, none, .normal⟩

/-- Release declaring an explicit feature `b` (entries `["x"]`) while
also having the optional dependency `b`, never suppressed. -/
def c5Iv : IndexVersion := ⟨"c", "1.0.0", false, [c5DepB], [("b", ["x"]), ("x", [])]⟩

/-- C5 counterexample: the explicitly declared feature `b = ["x"]`
(parsed as `[Feature x]`) does not keep its entry list — the implicit
insertion runs although `b` is already a feature-table key, and the
final table binds `b` to `[Dep b]`. -/
theorem c5_counterexample_explicit_feature_overwritten :
    parseThenGrowFeaturesTable c5Iv = .ok [("b", [.dependency "b"]), ("x", [])]
    ∧ lookupA [("b", [.dependency "b"]), ("x", [])] "b" = some [.dependency "b"]
    ∧ ¬ lookupA [("b", [.dependency "b"]), ("x", [])] "b" = some [.feature "x"] := by
  decide

/-- Optional dependency `s` for the C5 witness's suppression half. -/
def c5DepS : Dependency := ⟨"s", "s", "r", [], true, true, none, .normal⟩

/-- Release whose only mention of `s` is under a `dep:` prefix. -/
def c5Iv2 : IndexVersion := ⟨"c2", "1.0.0", false, [c5DepS], [("f", ["dep:s"])]⟩

/-- Witness for the amended C5 at concrete inputs. -/
theorem c5_implicit_feature_rule_witness :
    lookupA [("b", [.dependency "b"]), ("x", [])] "b" = some [.dependency "b"]
    ∧ lookupA [("f", [.dependency "s"])] "s" = none := by
  constructor
  · exact (c5_implicit_feature_rule c5Iv [("b", [.dependency "b"]), ("x", [])]
      (by decide)).1 c5DepB (by decide) rfl (Or.inl rfl) (by decide)
  · exact (c5_implicit_feature_rule c5Iv2 [("f", [.dependency "s"])]
      (by decide)).2 "s"
      ⟨("f", ["dep:s"]), by decide, "dep:s", by decide, by decide⟩ (by decide)

end Micrio
